import Mathlib

/-!
Verification development for the `inverted-index-concurrency` repository.

The Rust sources are modelled by a shallow embedding:

* strings being tokenized are `List Char` (Rust iterates `char_indices`);
  byte offsets are recomputed from the UTF-8 size of each character;
* hit buffers (`Vec<u8>` filled exclusively by 4-byte little-endian writes)
  are modelled as lists of 32-bit words (`List Nat`, each value `< 2^32`);
* files are modelled at two levels: a structural level (lists of
  contents-table entries, each entry carrying its payload) used for the
  merge pipeline, and a byte level (lists of byte values) used for the
  offset/layout and corrupt-file claims;
* `usize` arithmetic that can actually wrap (the `word_count -= 2`
  decrements of `from_index_file`) is made explicit with `% 2^64`;
  counters that are structurally bounded by in-memory container sizes
  (`word_count += 1` per token, Vec lengths) are plain `Nat`;
* Rust `HashMap`s are association lists.  Hash iteration order is
  unspecified in Rust, so every theorem about a map is stated through
  lookups; the model fixes insertion order as the canonical order.
-/

set_option maxHeartbeats 1000000

namespace InvIdx

/-- Word value of the hit-list separator: the i32 `-1` read back as a u32. -/
def SENTINEL : Nat := 2 ^ 32 - 1

/-- Modulus of a `u32`. -/
def U32 : Nat := 2 ^ 32

/-- Modulus of a `u64` / 64-bit `usize`. -/
def U64 : Nat := 2 ^ 64

/-- UTF-8 encoded byte length of a character (as Rust's `len_utf8`). -/
def utf8Len (c : Char) : Nat :=
  if c.toNat < 0x80 then 1
  else if c.toNat < 0x800 then 2
  else if c.toNat < 0x10000 then 3
  else 4

theorem utf8Len_pos (c : Char) : 0 < utf8Len c := by
  unfold utf8Len
  split <;> [omega; split <;> [omega; split <;> omega]]

/-- Byte length of a character sequence. -/
def byteLen (cs : List Char) : Nat := (cs.map utf8Len).sum

/-- Model of Rust's `char_indices` starting at byte offset `i`. -/
def charIndicesFrom (i : Nat) : List Char → List (Nat × Char)
  | [] => []
  | c :: cs => (i, c) :: charIndicesFrom (i + utf8Len c) cs

/-- Model of `text.char_indices()`: characters paired with byte offsets. -/
def charIndices (cs : List Char) : List (Nat × Char) := charIndicesFrom 0 cs

/-! ## The tokenizer (`index.rs`, `fn tokenize`)

The Rust loop keeps `tokens`, `last_pos`, `in_token` and `token_start`.
The token text is the slice `&text[token_start..idx]`, which the model
accumulates directly as the list of characters of the current run.
The alphanumeric test `char::is_alphanumeric` is a parameter `isAlnum`
(its full Unicode table is external to this repository). -/

structure TkState where
  tokens : List (List Char × Nat × Nat)
  lastPos : Nat
  inTok : Bool
  tokStart : Nat
  cur : List Char
deriving DecidableEq, Repr

/-- One iteration of the tokenizer loop on `(idx, ch)`. -/
def tokenizeStep (isAlnum : Char → Bool) (st : TkState) (p : Nat × Char) : TkState :=
  if isAlnum p.2 then
    if st.inTok then
      { st with cur := st.cur ++ [p.2], lastPos := p.1 }
    else
      { st with inTok := true, tokStart := p.1, cur := [p.2], lastPos := p.1 }
  else
    if st.inTok then
      { st with tokens := st.tokens ++ [(st.cur, st.tokStart, p.1 - 1)],
                inTok := false, cur := [], lastPos := p.1 }
    else
      { st with lastPos := p.1 }

/-- Model of `tokenize`: returns `(token text, start byte, end byte)` triples. -/
def tokenize (isAlnum : Char → Bool) (text : List Char) : List (List Char × Nat × Nat) :=
  let st := (charIndices text).foldl (tokenizeStep isAlnum) ⟨[], 0, false, 0, []⟩
  if st.inTok then st.tokens ++ [(st.cur, st.tokStart, st.lastPos)] else st.tokens

/-! ## The in-memory index (`index.rs`) -/

structure Document where
  id : Nat
  path : List Nat
deriving DecidableEq, Repr

structure InMemoryIndex where
  word_count : Nat
  map : List (String × List (List Nat))
  docs : List (Nat × Document)
deriving DecidableEq, Repr

/-- Association-list lookup, modelling `HashMap::get`. -/
def alookup {α β : Type} [DecidableEq α] (k : α) : List (α × β) → Option β
  | [] => none
  | p :: rest => if p.1 = k then some p.2 else alookup k rest

/-- Association-list insert-or-overwrite, modelling `HashMap::insert`. -/
def aset {α β : Type} [DecidableEq α] (k : α) (v : β) : List (α × β) → List (α × β)
  | [] => [(k, v)]
  | p :: rest => if p.1 = k then (k, v) :: rest else p :: aset k v rest

def InMemoryIndex.new : InMemoryIndex := ⟨0, [], []⟩

/-- Writes `(start, end)` into the first hit buffer of the list, as
`hits[0].write_u32(start); hits[0].write_u32(end)` does.  The empty case is
unreachable in `from_single_document`: `or_insert_with` always creates a
one-element vector first. -/
def addPosToHead (s e : Nat) : List (List Nat) → List (List Nat)
  | [] => []
  | h :: rest => (h ++ [s, e]) :: rest

/-- Map update for one token of `from_single_document`: either append the
span to the existing first hit, or create the hit `[-1, doc_id, s, e]`. -/
def addTokenHit (document_id : Nat) (tok : String) (s e : Nat) :
    List (String × List (List Nat)) → List (String × List (List Nat))
  | [] => [(tok, [[SENTINEL, document_id % U32, s, e]])]
  | p :: rest =>
    if p.1 = tok then (p.1, addPosToHead s e p.2) :: rest
    else p :: addTokenHit document_id tok s e rest

/-- One token of the `from_single_document` loop. -/
def fsdStep (document_id : Nat) (st : InMemoryIndex) (t : List Char × Nat × Nat) :
    InMemoryIndex :=
  { st with
    map := addTokenHit document_id (String.mk t.1) (t.2.1 % U32) (t.2.2 % U32) st.map,
    word_count := st.word_count + 1 }

/-- Model of `InMemoryIndex::from_single_document`.  `lower` stands for
Rust's `str::to_lowercase` (external Unicode tables), `isAlnum` for
`char::is_alphanumeric`. -/
def from_single_document (isAlnum : Char → Bool) (lower : List Char → List Char)
    (document_id : Nat) (path : List Nat) (text : List Char) : InMemoryIndex :=
  let base := (tokenize isAlnum (lower text)).foldl (fsdStep document_id) InMemoryIndex.new
  { base with docs := aset (document_id % U32) ⟨document_id % U32, path⟩ base.docs }

/-- Model of `self.map.entry(term).or_default().extend(hits)`. -/
def extendHits (term : String) (hs : List (List Nat)) :
    List (String × List (List Nat)) → List (String × List (List Nat))
  | [] => [(term, hs)]
  | p :: rest =>
    if p.1 = term then (p.1, p.2 ++ hs) :: rest
    else p :: extendHits term hs rest

/-- Model of `InMemoryIndex::merge`. -/
def InMemoryIndex.merge (a b : InMemoryIndex) : InMemoryIndex :=
  { word_count := a.word_count + b.word_count,
    map := b.map.foldl (fun m p => extendHits p.1 p.2 m) a.map,
    docs := b.docs.foldl (fun d p => aset p.1 p.2 d) a.docs }

/-- Model of `InMemoryIndex::is_empty`. -/
def InMemoryIndex.is_empty (i : InMemoryIndex) : Bool := i.word_count == 0

/-- Model of `InMemoryIndex::is_large`. -/
def InMemoryIndex.is_large (i : InMemoryIndex) : Bool := 100000000 < i.word_count

/-- The indexes the pipeline can build: the empty index, single-document
indexes, and merges of built indexes. -/
inductive Built : InMemoryIndex → Prop
  | new : Built InMemoryIndex.new
  | single : ∀ ia lo id p t, Built (from_single_document ia lo id p t)
  | merged : ∀ a b, Built a → Built b → Built (a.merge b)

/-! ## Byte-lexicographic string order

Rust orders `String`s by their UTF-8 bytes.  The model encodes strings to
bytes and compares byte lists lexicographically; the comparison is a plain
structural recursion, so it evaluates inside the kernel. -/

/-- UTF-8 encoding of one character. -/
def charUtf8 (c : Char) : List Nat :=
  let n := c.toNat
  if n < 0x80 then [n]
  else if n < 0x800 then [0xC0 + n / 64, 0x80 + n % 64]
  else if n < 0x10000 then [0xE0 + n / 4096, 0x80 + n / 64 % 64, 0x80 + n % 64]
  else [0xF0 + n / 262144, 0x80 + n / 4096 % 64, 0x80 + n / 64 % 64, 0x80 + n % 64]

/-- UTF-8 bytes of a string. -/
def strBytes (s : String) : List Nat := (s.data.map charUtf8).flatten

/-- Lexicographic strict order on byte lists. -/
def lexLt : List Nat → List Nat → Bool
  | _, [] => false
  | [], _ :: _ => true
  | a :: as, b :: bs => if a < b then true else if b < a then false else lexLt as bs

/-- Lexicographic non-strict order on byte lists. -/
def lexLe (a b : List Nat) : Bool := !lexLt b a

/-- Model of Rust's `<` on `String` (byte order). -/
def strLt (a b : String) : Bool := lexLt (strBytes a) (strBytes b)

/-- Model of Rust's `<=` on `String` (byte order). -/
def strLe (a b : String) : Bool := lexLe (strBytes a) (strBytes b)

theorem lexLt_asymm : ∀ a b : List Nat, lexLt a b = true → lexLt b a = false
  | _, [], h => by simp [lexLt] at h
  | [], _ :: _, _ => by simp [lexLt]
  | a :: as, b :: bs, h => by
    simp only [lexLt] at h ⊢
    rcases Nat.lt_trichotomy a b with hab | hab | hab
    · simp [hab, Nat.lt_asymm hab]
    · subst hab
      simp only [Nat.lt_irrefl, if_false] at h ⊢
      exact lexLt_asymm as bs h
    · simp [hab, Nat.lt_asymm hab] at h

theorem lexLt_total_of_ne : ∀ a b : List Nat, a ≠ b →
    lexLt a b = true ∨ lexLt b a = true
  | [], [], h => absurd rfl h
  | [], _ :: _, _ => Or.inl (by simp [lexLt])
  | _ :: _, [], _ => Or.inr (by simp [lexLt])
  | a :: as, b :: bs, h => by
    rcases Nat.lt_trichotomy a b with hab | hab | hab
    · exact Or.inl (by simp [lexLt, hab])
    · subst hab
      have hne : as ≠ bs := fun he => h (by rw [he])
      rcases lexLt_total_of_ne as bs hne with h1 | h1
      · exact Or.inl (by simp [lexLt, h1])
      · exact Or.inr (by simp [lexLt, h1])
    · exact Or.inr (by simp [lexLt, hab])

theorem lexLt_trans : ∀ a b c : List Nat,
    lexLt a b = true → lexLt b c = true → lexLt a c = true
  | _, _, [], _, h2 => by simp [lexLt] at h2
  | _, [], _ :: _, h1, _ => by simp [lexLt] at h1
  | [], _ :: _, _ :: _, _, _ => by simp [lexLt]
  | a :: as, b :: bs, c :: cs, h1, h2 => by
    simp only [lexLt] at h1 h2 ⊢
    rcases Nat.lt_trichotomy a b with hab | hab | hab
    · rcases Nat.lt_trichotomy b c with hbc | hbc | hbc
      · simp [Nat.lt_trans hab hbc]
      · subst hbc; simp [hab]
      · simp [hbc, Nat.lt_asymm hbc] at h2
    · subst hab
      rcases Nat.lt_trichotomy a c with hac | hac | hac
      · simp [hac]
      · subst hac
        simp only [Nat.lt_irrefl, if_false] at h1 h2 ⊢
        exact lexLt_trans as bs cs h1 h2
      · simp [hac, Nat.lt_asymm hac] at h2
    · simp [hab, Nat.lt_asymm hab] at h1

theorem lexLe_iff (a b : List Nat) : lexLe a b = true ↔ lexLt b a = false := by
  simp [lexLe]

theorem lexLt_irrefl (a : List Nat) : lexLt a a = false := by
  cases h : lexLt a a with
  | false => rfl
  | true => exact ((lexLt_asymm a a h).symm.trans h).symm

theorem lexLe_total (a b : List Nat) : lexLe a b = true ∨ lexLe b a = true := by
  by_cases h : a = b
  · subst h
    exact Or.inl ((lexLe_iff a a).mpr (lexLt_irrefl a))
  · rcases lexLt_total_of_ne a b h with h1 | h1
    · exact Or.inl ((lexLe_iff a b).mpr (lexLt_asymm _ _ h1))
    · exact Or.inr ((lexLe_iff b a).mpr (lexLt_asymm _ _ h1))

theorem lexLe_trans (a b c : List Nat) :
    lexLe a b = true → lexLe b c = true → lexLe a c = true := by
  intro h1 h2
  rw [lexLe_iff] at h1 h2 ⊢
  cases hca : lexLt c a with
  | false => rfl
  | true =>
    by_cases hab : a = b
    · subst hab
      simp [hca] at h2
    · rcases lexLt_total_of_ne a b hab with h | h
      · have h3 := lexLt_trans c a b hca h
        simp [h3] at h2
      · simp [h] at h1

theorem lexLt_le_trans (a b c : List Nat) :
    lexLt a b = true → lexLe b c = true → lexLe a c = true := by
  intro h1 h2
  rw [lexLe_iff] at h2 ⊢
  cases hca : lexLt c a with
  | false => rfl
  | true =>
    have h3 := lexLt_trans c a b hca h1
    simp [h3] at h2

theorem strLe_refl (a : String) : strLe a a = true :=
  (lexLe_iff _ _).mpr (lexLt_irrefl _)

theorem strLe_total (a b : String) : strLe a b = true ∨ strLe b a = true :=
  lexLe_total _ _

theorem strLe_trans {a b c : String} :
    strLe a b = true → strLe b c = true → strLe a c = true :=
  lexLe_trans _ _ _

theorem strLt_le_trans {a b c : String} :
    strLt a b = true → strLe b c = true → strLe a c = true :=
  lexLt_le_trans _ _ _

theorem strLt_le {a b : String} : strLt a b = true → strLe a b = true := by
  intro h
  exact (lexLe_iff _ _).mpr (lexLt_asymm _ _ h)

theorem strLe_of_not_lt {a b : String} : strLt b a = false → strLe a b = true := by
  intro h
  exact (lexLe_iff _ _).mpr h

theorem empty_strLe (u : String) : strLe "" u = true := by
  have hb : strBytes "" = [] := rfl
  simp only [strLe, lexLe, hb]
  cases h : lexLt (strBytes u) [] with
  | false => rfl
  | true => simp [lexLt] at h

/-! ## Stable insertion sort

Rust's `sort_by` / `sort_by_key` are stable sorts; any two stable sorts
with the same key agree, so a stable insertion sort is a faithful model. -/

/-- Insert `x` into `l`, before the first element `y` with `le x y`. -/
def insertBy {α : Type} (le : α → α → Bool) (x : α) : List α → List α
  | [] => [x]
  | y :: ys => if le x y then x :: y :: ys else y :: insertBy le x ys

/-- Stable insertion sort by `le`. -/
def sortBy {α : Type} (le : α → α → Bool) : List α → List α
  | [] => []
  | x :: xs => insertBy le x (sortBy le xs)

theorem insertBy_perm {α : Type} (le : α → α → Bool) (x : α) :
    ∀ l : List α, (insertBy le x l).Perm (x :: l)
  | [] => List.Perm.refl _
  | y :: ys => by
    simp only [insertBy]
    split
    · exact List.Perm.refl _
    · exact ((insertBy_perm le x ys).cons y).trans (List.Perm.swap x y ys)

theorem sortBy_perm {α : Type} (le : α → α → Bool) :
    ∀ l : List α, (sortBy le l).Perm l
  | [] => List.Perm.refl _
  | x :: xs =>
    (insertBy_perm le x (sortBy le xs)).trans ((sortBy_perm le xs).cons x)

theorem insertBy_pairwise {α : Type} {le : α → α → Bool}
    (htot : ∀ a b, le a b = true ∨ le b a = true)
    (htrans : ∀ a b c, le a b = true → le b c = true → le a c = true)
    (x : α) : ∀ l : List α, l.Pairwise (fun a b => le a b = true) →
    (insertBy le x l).Pairwise (fun a b => le a b = true)
  | [], _ => List.Pairwise.cons (by simp) List.Pairwise.nil
  | y :: ys, h => by
    simp only [insertBy]
    rcases List.pairwise_cons.mp h with ⟨hy, hys⟩
    split
    · rename_i hxy
      refine List.Pairwise.cons ?_ h
      intro b hb
      rcases hb with _ | hb
      · exact hxy
      · exact htrans x y b hxy (hy _ (by assumption))
    · rename_i hxy
      have hyx : le y x = true := by
        rcases htot x y with h1 | h1
        · exact absurd h1 hxy
        · exact h1
      refine List.Pairwise.cons ?_ (insertBy_pairwise htot htrans x ys hys)
      intro b hb
      have hmem : b ∈ x :: ys := (insertBy_perm le x ys).mem_iff.mp hb
      rcases List.mem_cons.mp hmem with hbx | hb'
      · subst hbx; exact hyx
      · exact hy _ hb'

theorem sortBy_pairwise {α : Type} {le : α → α → Bool}
    (htot : ∀ a b, le a b = true ∨ le b a = true)
    (htrans : ∀ a b c, le a b = true → le b c = true → le a c = true) :
    ∀ l : List α, (sortBy le l).Pairwise (fun a b => le a b = true)
  | [] => List.Pairwise.nil
  | x :: xs => insertBy_pairwise htot htrans x _ (sortBy_pairwise htot htrans xs)

theorem insertBy_sorted_eq {α : Type} (le : α → α → Bool) (x : α) (l : List α)
    (h : ∀ y ∈ l.head?, le x y = true) : insertBy le x l = x :: l := by
  cases l with
  | nil => rfl
  | cons y ys => simp [insertBy, h y rfl]

theorem sortBy_sorted_eq {α : Type} (le : α → α → Bool) :
    ∀ l : List α, List.Chain' (fun a b => le a b = true) l → sortBy le l = l
  | [], _ => rfl
  | x :: xs, h => by
    have hxs := sortBy_sorted_eq le xs h.tail
    simp only [sortBy, hxs]
    apply insertBy_sorted_eq
    intro y hy
    cases xs with
    | nil => simp at hy
    | cons z zs =>
      simp only [List.head?_cons, Option.mem_def, Option.some.injEq] at hy
      subst hy
      exact List.chain'_cons.mp h |>.1

/-! ## Tokenizer lemmas (claim C6) -/

theorem byteLen_append (a b : List Char) : byteLen (a ++ b) = byteLen a + byteLen b := by
  simp [byteLen]

theorem byteLen_cons (c : Char) (cs : List Char) :
    byteLen (c :: cs) = utf8Len c + byteLen cs := by
  simp [byteLen]

theorem charIndicesFrom_cons (i : Nat) (c : Char) (cs : List Char) :
    charIndicesFrom i (c :: cs) = (i, c) :: charIndicesFrom (i + utf8Len c) cs := rfl

theorem charIndicesFrom_append (i : Nat) (a b : List Char) :
    charIndicesFrom i (a ++ b) = charIndicesFrom i a ++ charIndicesFrom (i + byteLen a) b := by
  induction a generalizing i with
  | nil => simp [charIndicesFrom, byteLen]
  | cons c cs ih =>
    rw [List.cons_append, charIndicesFrom_cons, charIndicesFrom_cons, ih, byteLen_cons,
      List.cons_append, ← Nat.add_assoc]

theorem tokenizeStep_lastPos (ia : Char → Bool) (st : TkState) (p : Nat × Char) :
    (tokenizeStep ia st p).lastPos = p.1 := by
  simp only [tokenizeStep]
  split <;> split <;> rfl

theorem tokenizeStep_alnum_inTok (ia : Char → Bool) (st : TkState) (p : Nat × Char)
    (h : ia p.2 = true) : (tokenizeStep ia st p).inTok = true := by
  simp only [tokenizeStep, h, if_true]
  split
  · rename_i hin; exact hin
  · rfl

/-- Byte offset of the first byte of the last character of a run starting at
byte offset `i`. -/
def lastOff (i : Nat) : List Char → Nat
  | [] => i
  | [_] => i
  | c :: c2 :: rest => lastOff (i + utf8Len c) (c2 :: rest)

theorem lastOff_concat (c : Char) : ∀ (ys : List Char) (i : Nat),
    lastOff i (ys ++ [c]) = i + byteLen ys
  | [], i => by simp [lastOff, byteLen]
  | y :: ys, i => by
    have hsh : (y :: ys) ++ [c] = y :: (ys ++ [c]) := rfl
    rw [hsh]
    cases ys with
    | nil => simp [lastOff, byteLen]
    | cons z zs =>
      have h := lastOff_concat c (z :: zs) (i + utf8Len y)
      simp only [List.cons_append] at h ⊢
      rw [lastOff, h, show byteLen (y :: z :: zs) = utf8Len y + byteLen (z :: zs) from
        byteLen_cons y (z :: zs)]
      omega

/-- Folding the tokenizer over an all-alphanumeric run while inside a token
appends the run to the current token and tracks the last offset. -/
theorem tokenizeFold_run (ia : Char → Bool) : ∀ (cs : List Char), cs ≠ [] →
    ∀ (i : Nat) (st : TkState), (∀ x ∈ cs, ia x = true) → st.inTok = true →
    (charIndicesFrom i cs).foldl (tokenizeStep ia) st =
      ⟨st.tokens, lastOff i cs, true, st.tokStart, st.cur ++ cs⟩
  | [], h => absurd rfl h
  | [c], _ => by
    intro i st hall hin
    have hc : ia c = true := hall c (by simp)
    rw [charIndicesFrom_cons, List.foldl_cons]
    simp only [charIndicesFrom, List.foldl_nil]
    simp only [tokenizeStep, hc, if_true, hin, if_true, lastOff]
  | c :: c2 :: rest, _ => by
    intro i st hall hin
    have hc : ia c = true := hall c (by simp)
    rw [charIndicesFrom_cons, List.foldl_cons]
    have hstep : tokenizeStep ia st (i, c) =
        { st with cur := st.cur ++ [c], lastPos := i } := by
      simp [tokenizeStep, hc, hin]
    rw [hstep]
    have ih := tokenizeFold_run ia (c2 :: rest) (by simp) (i + utf8Len c)
      { st with cur := st.cur ++ [c], lastPos := i }
      (fun x hx => hall x (by simp [hx])) hin
    rw [ih]
    have hoff : lastOff i (c :: c2 :: rest) = lastOff (i + utf8Len c) (c2 :: rest) := rfl
    rw [hoff]
    simp [List.append_assoc]

/-- On a non-empty all-alphanumeric text, the tokenizer returns exactly one
token: the whole text, starting at byte 0 and ending at the first byte of
the last character. -/
theorem tokenize_single_run (ia : Char → Bool) (text : List Char)
    (hne : text ≠ []) (hall : ∀ x ∈ text, ia x = true) :
    tokenize ia text = [(text, 0, lastOff 0 text)] := by
  cases text with
  | nil => exact absurd rfl hne
  | cons c0 cs =>
    have hc0 : ia c0 = true := hall c0 (by simp)
    simp only [tokenize, charIndices]
    rw [charIndicesFrom_cons, List.foldl_cons]
    have hstep : tokenizeStep ia ⟨[], 0, false, 0, []⟩ (0, c0) =
        ⟨[], 0, true, 0, [c0]⟩ := by
      simp [tokenizeStep, hc0]
    rw [hstep]
    cases cs with
    | nil =>
      simp only [charIndicesFrom, List.foldl_nil, if_true, lastOff]
      rfl
    | cons c2 rest =>
      have h := tokenizeFold_run ia (c2 :: rest) (by simp) (0 + utf8Len c0)
        ⟨[], 0, true, 0, [c0]⟩ (fun x hx => hall x (by simp [hx])) rfl
      rw [h]
      simp only [if_true]
      have hoff : lastOff 0 (c0 :: c2 :: rest) = lastOff (0 + utf8Len c0) (c2 :: rest) := rfl
      rw [hoff]
      rfl

/-- When the text ends with an alphanumeric character, the tokenizer closes
a final token whose end field is the byte offset of the first byte of the
last character (`byteLen ys` when the text is `ys ++ [c]`). -/
theorem tokenize_trailing (ia : Char → Bool) (ys : List Char) (c : Char)
    (hc : ia c = true) :
    ∃ tok s, (tokenize ia (ys ++ [c])).getLast? = some (tok, s, byteLen ys) := by
  have hsplit : charIndices (ys ++ [c]) =
      charIndicesFrom 0 ys ++ [(byteLen ys, c)] := by
    rw [charIndices, charIndicesFrom_append]
    simp [charIndicesFrom]
  simp only [tokenize, hsplit, List.foldl_append, List.foldl_cons, List.foldl_nil]
  set st0 := (charIndicesFrom 0 ys).foldl (tokenizeStep ia) ⟨[], 0, false, 0, []⟩
  have hin := tokenizeStep_alnum_inTok ia st0 (byteLen ys, c) hc
  have hlast := tokenizeStep_lastPos ia st0 (byteLen ys, c)
  rw [if_pos hin]
  refine ⟨(tokenizeStep ia st0 (byteLen ys, c)).cur,
    (tokenizeStep ia st0 (byteLen ys, c)).tokStart, ?_⟩
  rw [List.getLast?_concat, hlast]

/-- Restriction of Rust's `char::is_alphanumeric` to ASCII text, where it
agrees with Lean's `Char.isAlphanum`. -/
def asciiAlnum (c : Char) : Bool := c.isAlphanum

/-- Rust's `char::is_alphanumeric` on the characters appearing in this
development: ASCII alphanumerics plus U+00E9 (a Unicode lowercase letter,
alphanumeric in Rust but outside Lean's ASCII `Char.isAlphanum`). -/
def alnumWithEAcute (c : Char) : Bool := c.isAlphanum || c == 'é'

/-- Behaviour of Rust's `str::to_lowercase` on text that is already
lower-case: the identity. -/
def lowerId : List Char → List Char := fun t => t

/-- Claim C6, amended.  When the lower-cased text ends with an alphanumeric
character `c` (text = `ys ++ [c]`), the final token's end field is the byte
offset of the first byte of `c`, namely `byteLen ys` — not the offset of
the last byte of the text, which differs when `c` is multi-byte.  On an
all-alphanumeric text, `from_single_document` produces exactly one term
whose single hit carries document id, span start `0` and span end
`byteLen ys`. -/
theorem trailing_token_span (ia : Char → Bool) (lower : List Char → List Char)
    (id : Nat) (path : List Nat) (text ys : List Char) (c : Char)
    (hsplit : lower text = ys ++ [c]) (hc : ia c = true) :
    (∃ tok s, (tokenize ia (lower text)).getLast? = some (tok, s, byteLen ys))
    ∧ ((∀ x ∈ lower text, ia x = true) →
        from_single_document ia lower id path text =
          ⟨1, [(String.mk (lower text), [[SENTINEL, id % U32, 0, byteLen ys % U32]])],
           [(id % U32, ⟨id % U32, path⟩)]⟩) := by
  constructor
  · rw [hsplit]
    exact tokenize_trailing ia ys c hc
  · intro hall
    have hne : lower text ≠ [] := by rw [hsplit]; simp
    have ht := tokenize_single_run ia (lower text) hne hall
    have hoff : lastOff 0 (lower text) = byteLen ys := by
      rw [hsplit, lastOff_concat, Nat.zero_add]
    rw [hoff] at ht
    simp only [from_single_document, ht, List.foldl_cons, List.foldl_nil, fsdStep,
      InMemoryIndex.new, addTokenHit, aset, Nat.zero_mod]

/-- Witness for `trailing_token_span` at an ASCII input. -/
theorem trailing_token_span_witness :
    (∃ tok s, (tokenize asciiAlnum (lowerId ['a', 'b'])).getLast? =
      some (tok, s, byteLen ['a'])) ∧
    from_single_document asciiAlnum lowerId 3 [7] ['a', 'b'] =
      ⟨1, [(String.mk (lowerId ['a', 'b']), [[SENTINEL, 3 % U32, 0, byteLen ['a'] % U32]])],
       [(3 % U32, ⟨3 % U32, [7]⟩)]⟩ := by
  have h := trailing_token_span asciiAlnum lowerId 3 [7] ['a', 'b'] ['a'] 'b' rfl (by decide)
  exact ⟨h.1, h.2 (by decide)⟩

/-- Counterexample to claim C6 as stated: for the text `"é"` (a single
alphanumeric run of one two-byte character) the recorded span end is `0`,
the first byte of the last character, whereas the claim demands the last
byte of the text, `byteLen "é" - 1 = 1`. -/
theorem trailing_token_span_cx :
    (from_single_document alnumWithEAcute lowerId 1 [] ['é']).map
      = [(String.mk ['é'], [[SENTINEL, 1, 0, 0]])]
    ∧ byteLen ['é'] - 1 = 1 := by
  constructor
  · decide
  · decide

/-! ## Highlighting (`index.rs`, `highlight_file` / `highlight_text`, claim C7)

Text is modelled as its byte sequence.  Rust's string slicing additionally
panics on non-character boundaries; the byte model is exact for ASCII text,
over which these theorems quantify. -/

/-- Bytes of the opening marker `"\x1b[31m"`. -/
def OPENM : List Nat := [27, 91, 51, 49, 109]

/-- Bytes of the closing marker `"\x1b[0m"`. -/
def CLOSEM : List Nat := [27, 91, 48, 109]

structure TokenPos where
  start_pos : Nat
  end_pos : Nat
deriving DecidableEq, Repr

/-- Model of `highlight_text`: invalid positions leave the text unchanged,
valid ones wrap `text[s..=e]` in the two markers. -/
def highlight_text (text : List Nat) (s e : Nat) : List Nat :=
  if text.length < s ∨ text.length ≤ e ∨ e < s then text
  else
    text.take s ++ OPENM ++ (text.drop s).take (e + 1 - s) ++ CLOSEM ++ text.drop (e + 1)

/-- The loop of `highlight_file`: each span's positions are shifted by
`extra`, and `extra` grows by 9 on every iteration (the source adds the
marker length unconditionally, even when the span was skipped). -/
def highlightLoop : List TokenPos → List Nat → Nat → List Nat
  | [], text, _ => text
  | p :: rest, text, extra =>
    highlightLoop rest (highlight_text text (p.start_pos + extra) (p.end_pos + extra))
      (extra + 9)

/-- Model of `poss.sort_by_key(|pos| pos.start_pos)` (a stable sort). -/
def sortPoss (poss : List TokenPos) : List TokenPos :=
  sortBy (fun a b => decide (a.start_pos ≤ b.start_pos)) poss

/-- Model of `highlight_file` (with the file's text passed in directly). -/
def highlight_file (text : List Nat) (poss : List TokenPos) : List Nat :=
  highlightLoop (sortPoss poss) text 0

/-- Intended rendering: for spans sorted, disjoint and valid with respect
to the original text, each span `[s, e]` of the original text is wrapped in
the two markers. -/
def renderFrom (orig : List Nat) (q : Nat) : List TokenPos → List Nat
  | [] => orig.drop q
  | p :: rest =>
    (orig.drop q).take (p.start_pos - q) ++ OPENM
      ++ (orig.drop p.start_pos).take (p.end_pos + 1 - p.start_pos) ++ CLOSEM
      ++ renderFrom orig (p.end_pos + 1) rest

theorem highlightLoop_render (orig : List Nat) :
    ∀ (ps : List TokenPos) (q : Nat) (P : List Nat),
    q ≤ orig.length → q ≤ P.length →
    (∀ p ∈ ps, q ≤ p.start_pos ∧ p.start_pos ≤ p.end_pos ∧ p.end_pos < orig.length) →
    List.Pairwise (fun a b => a.end_pos < b.start_pos) ps →
    highlightLoop ps (P ++ orig.drop q) (P.length - q) = P ++ renderFrom orig q ps
  | [], q, P, _, _, _, _ => by simp [highlightLoop, renderFrom]
  | p :: rest, q, P, hq, hqP, hval, hsep => by
    obtain ⟨hqs, hse, heL⟩ := hval p (by simp)
    have hsL : p.start_pos ≤ orig.length := Nat.le_of_lt (Nat.lt_of_le_of_lt hse heL)
    simp only [highlightLoop, renderFrom]
    have hlen : (P ++ orig.drop q).length = P.length + (orig.length - q) := by
      simp [List.length_drop]
    have hs' : p.start_pos + (P.length - q) = P.length + (p.start_pos - q) := by omega
    have he' : p.end_pos + (P.length - q) = P.length + (p.end_pos - q) := by omega
    have hcond : ¬((P ++ orig.drop q).length < p.start_pos + (P.length - q) ∨
        (P ++ orig.drop q).length ≤ p.end_pos + (P.length - q) ∨
        p.end_pos + (P.length - q) < p.start_pos + (P.length - q)) := by
      rw [hlen, hs', he']
      omega
    rw [highlight_text, if_neg hcond]
    have htake : (P ++ orig.drop q).take (p.start_pos + (P.length - q)) =
        P ++ (orig.drop q).take (p.start_pos - q) := by
      rw [hs', List.take_append_eq_append_take]
      congr 1
      · exact List.take_of_length_le (by omega)
      · congr 1
        omega
    have hdrop : (P ++ orig.drop q).drop (p.start_pos + (P.length - q)) =
        orig.drop p.start_pos := by
      rw [hs', List.drop_append_eq_append_drop]
      have h1 : P.drop (P.length + (p.start_pos - q)) = [] :=
        List.drop_eq_nil_of_le (by omega)
      rw [h1, List.nil_append, List.drop_drop]
      congr 1
      omega
    have hdrop2 : (P ++ orig.drop q).drop (p.end_pos + (P.length - q) + 1) =
        orig.drop (p.end_pos + 1) := by
      rw [List.drop_append_eq_append_drop]
      have h1 : P.drop (p.end_pos + (P.length - q) + 1) = [] :=
        List.drop_eq_nil_of_le (by omega)
      rw [h1, List.nil_append, List.drop_drop]
      congr 1
      omega
    have hspan : p.end_pos + (P.length - q) + 1 - (p.start_pos + (P.length - q)) =
        p.end_pos + 1 - p.start_pos := by omega
    rw [htake, hdrop, hdrop2, hspan]
    set A := (orig.drop q).take (p.start_pos - q) with hA
    set B := (orig.drop p.start_pos).take (p.end_pos + 1 - p.start_pos) with hB
    have hAlen : A.length = p.start_pos - q := by
      rw [hA, List.length_take, List.length_drop]
      omega
    have hBlen : B.length = p.end_pos + 1 - p.start_pos := by
      rw [hB, List.length_take, List.length_drop]
      omega
    have hre : P ++ A ++ OPENM ++ B ++ CLOSEM ++ orig.drop (p.end_pos + 1) =
        (P ++ A ++ OPENM ++ B ++ CLOSEM) ++ orig.drop (p.end_pos + 1) := by
      simp [List.append_assoc]
    rw [hre]
    have hlen' : (P ++ A ++ OPENM ++ B ++ CLOSEM).length - (p.end_pos + 1) =
        P.length - q + 9 := by
      simp only [List.length_append, hAlen, hBlen]
      have : OPENM.length = 5 := rfl
      rw [this]
      have : CLOSEM.length = 4 := rfl
      rw [this]
      omega
    rw [← hlen']
    have ih := highlightLoop_render orig rest (p.end_pos + 1)
      (P ++ A ++ OPENM ++ B ++ CLOSEM)
      (by omega)
      (by simp only [List.length_append, hAlen, hBlen]; omega)
      (fun x hx => by
        obtain ⟨h1, h2, h3⟩ := hval x (by simp [hx])
        have h4 := (List.pairwise_cons.mp hsep).1 x hx
        exact ⟨by omega, h2, h3⟩)
      (List.pairwise_cons.mp hsep).2
    rw [ih]
    simp [List.append_assoc]

/-- Claim C7, amended.  The spans are processed in ascending start order
and `extra_chars` grows by 9 per processed span (whether or not that span
was inserted).  When every span is valid for the original text and the
spans are pairwise disjoint, each span's markers wrap exactly the bytes
`[start, end]` of the original text. -/
theorem highlight_file_exact (text : List Nat) (ps : List TokenPos)
    (hval : ∀ p ∈ ps, p.start_pos ≤ p.end_pos ∧ p.end_pos < text.length)
    (hsep : List.Pairwise (fun a b => a.end_pos < b.start_pos) ps) :
    highlight_file text ps = renderFrom text 0 ps := by
  have hp : List.Pairwise (fun a b : TokenPos =>
      decide (a.start_pos ≤ b.start_pos) = true) ps := by
    refine List.Pairwise.imp_of_mem ?_ hsep
    intro a b ha hb hab
    have h1 := (hval a ha).1
    simp only [decide_eq_true_eq]
    omega
  have hsorted := List.Pairwise.chain' hp
  have hid : sortPoss ps = ps := sortBy_sorted_eq _ ps hsorted
  have h := highlightLoop_render text ps 0 [] (Nat.zero_le _) (Nat.zero_le _)
    (fun p hp => ⟨Nat.zero_le _, (hval p hp).1, (hval p hp).2⟩) hsep
  simpa [highlight_file, hid] using h

/-- Witness for `highlight_file_exact` on a concrete ASCII text. -/
theorem highlight_file_exact_witness :
    highlight_file [100, 101, 102, 103, 104, 105] [⟨1, 2⟩, ⟨4, 4⟩] =
      renderFrom [100, 101, 102, 103, 104, 105] 0 [⟨1, 2⟩, ⟨4, 4⟩] :=
  highlight_file_exact [100, 101, 102, 103, 104, 105] [⟨1, 2⟩, ⟨4, 4⟩]
    (by decide) (by decide)

/-- Counterexample to claim C7 as stated: on the text `"abcdef"` with the
invalid span `[0, 99]` followed by the valid span `[2, 3]`, the source
still advances `extra_chars` by 9 for the skipped span, so the valid span
is probed at `[11, 12]`, found out of bounds and skipped too: the output
carries no markers at all, although the claim requires span `[2, 3]` to be
wrapped exactly. -/
theorem highlight_file_cx :
    highlight_file [97, 98, 99, 100, 101, 102] [⟨0, 99⟩, ⟨2, 3⟩] =
      [97, 98, 99, 100, 101, 102]
    ∧ renderFrom [97, 98, 99, 100, 101, 102] 0 [⟨2, 3⟩] ≠
      [97, 98, 99, 100, 101, 102] := by
  constructor
  · decide
  · decide

/-! ## Byte-level encodings and the file reader (`read.rs`, claim C9) -/

/-- Little-endian value of a byte list. -/
def leVal (bs : List Nat) : Nat := bs.foldr (fun b acc => b + 256 * acc) 0

/-- Little-endian 4-byte encoding of a u32 value. -/
def u32le (n : Nat) : List Nat :=
  [n % 256, n / 256 % 256, n / 65536 % 256, n / 16777216 % 256]

/-- Little-endian 8-byte encoding of a u64 value. -/
def u64le (n : Nat) : List Nat :=
  u32le (n % U32) ++ u32le (n / U32 % U32)

/-- Read `n` bytes; `none` models `read_exact` failing with `UnexpectedEof`. -/
def readBytes (n : Nat) (bs : List Nat) : Option (List Nat × List Nat) :=
  if n ≤ bs.length then some (bs.take n, bs.drop n) else none

/-- Model of `ReadBytesExt::read_u64::<LittleEndian>`. -/
def readU64 (bs : List Nat) : Option (Nat × List Nat) :=
  (readBytes 8 bs).map (fun p => (leVal p.1, p.2))

/-- Model of `ReadBytesExt::read_u32::<LittleEndian>`. -/
def readU32 (bs : List Nat) : Option (Nat × List Nat) :=
  (readBytes 4 bs).map (fun p => (leVal p.1, p.2))

/-- Decode a UTF-8 byte sequence, rejecting malformed input as Rust's
`String::from_utf8` does (continuation-byte checks, overlongs,
surrogates, and the `> U+10FFFF` range). -/
def utf8Decode : List Nat → Option (List Char)
  | [] => some []
  | b :: rest =>
    if b < 0x80 then
      (utf8Decode rest).map (fun cs => Char.ofNat b :: cs)
    else if b < 0xC2 then none
    else if b < 0xE0 then
      match rest with
      | b1 :: rest1 =>
        if 0x80 ≤ b1 ∧ b1 < 0xC0 then
          (utf8Decode rest1).map (fun cs => Char.ofNat ((b - 0xC0) * 64 + (b1 - 0x80)) :: cs)
        else none
      | [] => none
    else if b < 0xF0 then
      match rest with
      | b1 :: b2 :: rest2 =>
        if (0x80 ≤ b1 ∧ b1 < 0xC0) ∧ (0x80 ≤ b2 ∧ b2 < 0xC0)
            ∧ (b = 0xE0 → 0xA0 ≤ b1) ∧ (b = 0xED → b1 < 0xA0) then
          (utf8Decode rest2).map (fun cs =>
            Char.ofNat ((b - 0xE0) * 4096 + (b1 - 0x80) * 64 + (b2 - 0x80)) :: cs)
        else none
      | _ => none
    else if b < 0xF5 then
      match rest with
      | b1 :: b2 :: b3 :: rest3 =>
        if (0x80 ≤ b1 ∧ b1 < 0xC0) ∧ (0x80 ≤ b2 ∧ b2 < 0xC0) ∧ (0x80 ≤ b3 ∧ b3 < 0xC0)
            ∧ (b = 0xF0 → 0x90 ≤ b1) ∧ (b = 0xF4 → b1 < 0x90) then
          (utf8Decode rest3).map (fun cs =>
            Char.ofNat ((b - 0xF0) * 262144 + (b1 - 0x80) * 4096
              + (b2 - 0x80) * 64 + (b3 - 0x80)) :: cs)
        else none
      | _ => none
    else none
termination_by bs => bs.length
decreasing_by all_goals simp_arith [List.length]

/-- Result of a fallible read, mirroring `io::Result`. -/
inductive RdRes (α : Type) : Type
  | ok (a : α)
  | err (msg : String)
deriving DecidableEq

/-- An entry of the contents table as the reader returns it. -/
structure REntry where
  term : String
  df : Nat
  offset : Nat
  nbytes : Nat
deriving DecidableEq, Repr

/-- Model of `IndexFileReader::read_entry` on the remaining contents bytes.
An end-of-file on the very first field yields `Ok(None)`; any later
truncation or invalid UTF-8 is an error. -/
def read_entry (bs : List Nat) : RdRes (Option (REntry × List Nat)) :=
  match readU64 bs with
  | none => .ok none
  | some (off, bs1) =>
    match readU64 bs1 with
    | none => .err "unexpected eof"
    | some (nb, bs2) =>
      match readU32 bs2 with
      | none => .err "unexpected eof"
      | some (df, bs3) =>
        match readU32 bs3 with
        | none => .err "unexpected eof"
        | some (term_len, bs4) =>
          match readBytes term_len bs4 with
          | none => .err "unexpected eof"
          | some (termBytes, bs5) =>
            match utf8Decode termBytes with
            | none => .err "unicode fail"
            | some cs => .ok (some (⟨String.mk cs, df, off, nb⟩, bs5))

/-- State of an open `IndexFileReader`: the read-ahead entry and the
remaining contents-table bytes. -/
structure Reader9 where
  next : Option REntry
  entriesRest : List Nat
deriving DecidableEq

/-- Model of `IndexFileReader::open_and_delete`: read the 8-byte header,
seek the second handle to `contents_start` (seeking past the end of the
file is permitted and reads from there simply hit end-of-file), then read
the first contents entry. -/
def open_and_delete (file : List Nat) : RdRes Reader9 :=
  match readU64 file with
  | none => .err "unexpected eof"
  | some (entries_offset, _) =>
    match read_entry (file.drop entries_offset) with
    | .err m => .err m
    | .ok none => .ok ⟨none, []⟩
    | .ok (some (e, rest)) => .ok ⟨some e, rest⟩

/-- Claim C9, amended: a header whose `contents_start` lies past the end of
the file does not produce an error — seeking succeeds, the first
`read_entry` hits end-of-file on its first field and returns `Ok(None)`,
and the reader opens successfully with an empty contents table. -/
theorem open_out_of_bounds (file : List Nat) (h8 : 8 ≤ file.length)
    (hbig : file.length ≤ leVal (file.take 8)) :
    open_and_delete file = .ok ⟨none, []⟩ := by
  have hread : readU64 file = some (leVal (file.take 8), file.drop 8) := by
    simp [readU64, readBytes, h8]
  have hdrop : file.drop (leVal (file.take 8)) = [] :=
    List.drop_eq_nil_of_le hbig
  have hre : read_entry (file.drop (leVal (file.take 8))) = .ok none := by
    rw [hdrop]
    simp [read_entry, readU64, readBytes]
  simp only [open_and_delete, hread, hre]

/-- The corrupt file of the claim: 100 bytes whose header says the contents
table starts at byte 10^9. -/
def corruptFile : List Nat := u64le 1000000000 ++ List.replicate 92 0

/-- Witness for `open_out_of_bounds` at the concrete corrupt file. -/
theorem open_out_of_bounds_witness : open_and_delete corruptFile = .ok ⟨none, []⟩ :=
  open_out_of_bounds corruptFile (by decide) (by decide)

/-- True when a read result is an error. -/
def RdRes.isErr {α : Type} : RdRes α → Bool
  | .ok _ => false
  | .err _ => true

/-- Counterexample to claim C9 as stated: on the 100-byte file with
`contents_start = 10^9` the reader does not return a format error; opening
succeeds and the first `read_entry` returned no entry. -/
theorem open_out_of_bounds_cx :
    open_and_delete corruptFile = .ok ⟨none, []⟩
    ∧ (open_and_delete corruptFile).isErr = false := by
  constructor
  · decide
  · decide

/-! ## Index files at the structural level

A file is a list of contents-table entries in file order, each carrying its
payload: a word list for a term entry (hit buffers are written and parsed
as whole little-endian u32 words), or `(doc_id, path)` for a document
record.  The byte-level layout, including the offsets recorded in the
contents table, is treated separately for claim C2. -/

inductive EData : Type
  | words (ws : List Nat)
  | doc (id : Nat) (path : List Nat)
deriving DecidableEq, Repr

/-- Byte size of an entry's payload. -/
def EData.numBytes : EData → Nat
  | .words ws => 4 * ws.length
  | .doc _ p => 12 + p.length

structure MEntry where
  term : String
  df : Nat
  data : EData
deriving DecidableEq, Repr

def MEntry.numBytes (e : MEntry) : Nat := e.data.numBytes

/-- Model of `index_as_vec.sort_by(|(a, _), (b, _)| a.cmp(b))`: stable sort
by byte-lexicographic term order. -/
def sortTerms (m : List (String × List (List Nat))) : List (String × List (List Nat)) :=
  sortBy (fun a b => strLe a.1 b.1) m

/-- A term entry of the written file: `df` is the number of hits and the
payload is the hit buffers written back to back. -/
def termEntry (p : String × List (List Nat)) : MEntry :=
  ⟨p.1, p.2.length, .words p.2.flatten⟩

/-- A document entry of the written file: empty term, `df = 0`. -/
def docEntry (p : Nat × Document) : MEntry :=
  ⟨"", 0, .doc p.2.id p.2.path⟩

/-- The contents entries of the file `write_index_to_tmp_file` writes, in
file order: term entries sorted by term, then one entry per document. -/
def writeIndexEntries (I : InMemoryIndex) : List MEntry :=
  (sortTerms I.map).map termEntry ++ I.docs.map docEntry

/-! ## Reloading a file (`InMemoryIndex::from_index_file`) -/

/-- The hit buffers reconstructed by the parsing loop of `from_index_file`:
the word stream is split before every `SENTINEL` word except at the very
start (`has_hit` still false). -/
def parseHits (cur : List Nat) (hasHit : Bool) : List Nat → List (List Nat)
  | [] => if cur = [] then [] else [cur]
  | w :: rest =>
    if w = SENTINEL ∧ hasHit = true then cur :: parseHits [w] true rest
    else parseHits (cur ++ [w]) true rest

/-- Wrapping u64 subtraction by 2 (`index.word_count -= 2` on a `usize`). -/
def wrapSub2 (n : Nat) : Nat := (n + U64 - 2) % U64

/-- Wrapping u64 increment (`index.word_count += 1` on a `usize`). -/
def wrapAdd1 (n : Nat) : Nat := (n + 1) % U64

/-- The `word_count` updates performed by the same parsing loop: one
increment per word read, a decrement by 2 at every split and at the final
flush of a non-empty buffer. -/
def parseWc (wc : Nat) (cur : List Nat) (hasHit : Bool) : List Nat → Nat
  | [] => if cur = [] then wc else wrapSub2 wc
  | w :: rest =>
    if w = SENTINEL ∧ hasHit = true then parseWc (wrapAdd1 (wrapSub2 wc)) [w] true rest
    else parseWc (wrapAdd1 wc) (cur ++ [w]) true rest

structure RState where
  word_count : Nat
  map : List (String × List (List Nat))
  docs : List (Nat × Document)
deriving DecidableEq, Repr

/-- One contents entry of `from_index_file`: entries tagged by empty term
and zero df are document records, all others are term entries whose data is
parsed into hit buffers (`df = 0` skips the parse loop entirely).  In files
this system writes the tag always agrees with the payload kind, so the
mismatch arms cannot be reached. -/
def reloadStep (st : RState) (e : MEntry) : RState :=
  if e.term = "" ∧ e.df = 0 then
    match e.data with
    | .doc id path => { st with docs := aset id ⟨id, path⟩ st.docs }
    | .words _ => st
  else
    match e.data with
    | .words ws =>
      if e.df = 0 then { st with map := aset e.term [] st.map }
      else
        { st with map := aset e.term (parseHits [] false ws) st.map,
                  word_count := parseWc st.word_count [] false ws }
    | .doc _ _ => st

/-- Model of `InMemoryIndex::from_index_file` on a structural file. -/
def from_index_file (es : List MEntry) : InMemoryIndex :=
  let st := es.foldl reloadStep ⟨0, [], []⟩
  ⟨st.word_count / 2, st.map, st.docs⟩

/-! ## Search extraction (`InMemoryIndex::search`) -/

/-- Pair up consecutive words as `(start, end)` spans; an unpaired trailing
word is dropped, as in the source's toggle loop. -/
def pairUp : List Nat → List TokenPos
  | s :: e :: rest => ⟨s, e⟩ :: pairUp rest
  | _ => []

/-- What `search` extracts from one hit buffer: the word after the
separator is the document id, the rest are span pairs.  `none` when the
buffer is shorter than two words (there the source's `unwrap` panics). -/
def hitDocPoss (h : List Nat) : Option (Nat × List TokenPos) :=
  match h with
  | _ :: d :: rest => some (d, pairUp rest)
  | _ => none

/-- What `search term` reports: for each hit of the term, the extracted
document id and spans together with the `docs` lookup used to read and
highlight the file. -/
def searchHits (I : InMemoryIndex) (term : String) :
    Option (List (Option (Nat × List TokenPos) × Option Document)) :=
  (alookup term I.map).map (fun hits =>
    hits.map (fun h =>
      (hitDocPoss h, (hitDocPoss h).bind (fun p => alookup p.1 I.docs))))

/-! ## Invariants of built indexes -/

/-- Shape of every hit buffer a built index holds: separator, document id
and at least one span pair. -/
def GoodHit (h : List Nat) : Prop := ∃ d s e u, h = SENTINEL :: d :: s :: e :: u

/-- A hit buffer that parses back to itself: it starts with the separator
and contains no further separator word. -/
def CleanHit (h : List Nat) : Prop := ∃ u, h = SENTINEL :: u ∧ SENTINEL ∉ u

/-- No hit buffer of the index contains the separator word other than in
leading position: fails only when a document id or span offset is
`0xFFFFFFFF`. -/
def StrayFree (I : InMemoryIndex) : Prop :=
  ∀ p ∈ I.map, ∀ h ∈ p.2, SENTINEL ∉ h.tail

/-- Structural well-formedness every built index satisfies. -/
def WFIndex (I : InMemoryIndex) : Prop :=
  (∀ p ∈ I.map, p.1 ≠ "" ∧ p.2 ≠ [] ∧ ∀ h ∈ p.2, GoodHit h)
  ∧ (I.map.map Prod.fst).Nodup
  ∧ (I.docs.map Prod.fst).Nodup
  ∧ (∀ p ∈ I.docs, p.2.id = p.1)

/-- Total length, in 32-bit words, of a term's hit buffers beyond the two
header words of each: twice the number of spans stored. -/
def hitsWeight (hs : List (List Nat)) : Nat := (hs.map (fun h => h.length - 2)).sum

/-- Sum of `hitsWeight` over a term map. -/
def mapWeight (m : List (String × List (List Nat))) : Nat :=
  (m.map (fun p => hitsWeight p.2)).sum

/-- Repeated `aset`, as both reload loops perform. -/
def asets {α β : Type} [DecidableEq α] (ps : List (α × β)) (m : List (α × β)) :
    List (α × β) :=
  ps.foldl (fun acc p => aset p.1 p.2 acc) m

/-! ## Small association-list lemmas -/

theorem mem_keys_aset {α β : Type} [DecidableEq α] (k : α) (v : β) :
    ∀ (m : List (α × β)) (x : α),
    x ∈ (aset k v m).map Prod.fst ↔ x ∈ m.map Prod.fst ∨ x = k
  | [], x => by simp [aset]
  | p :: rest, x => by
    simp only [aset]
    split
    · rename_i hpk
      subst hpk
      simp only [List.map_cons, List.mem_cons]
      tauto
    · simp only [List.map_cons, List.mem_cons, mem_keys_aset k v rest x]
      tauto

theorem nodup_aset {α β : Type} [DecidableEq α] (k : α) (v : β) :
    ∀ m : List (α × β), (m.map Prod.fst).Nodup → ((aset k v m).map Prod.fst).Nodup
  | [], _ => by simp [aset]
  | p :: rest, h => by
    simp only [List.map_cons, List.nodup_cons] at h
    simp only [aset]
    split
    · rename_i hpk
      subst hpk
      simp only [List.map_cons, List.nodup_cons]
      exact h
    · rename_i hpk
      simp only [List.map_cons, List.nodup_cons, mem_keys_aset]
      refine ⟨?_, nodup_aset k v rest h.2⟩
      rintro (hx | hx)
      · exact h.1 hx
      · exact hpk hx

theorem mem_aset {α β : Type} [DecidableEq α] (k : α) (v : β) :
    ∀ m : List (α × β), ∀ p ∈ aset k v m, p ∈ m ∨ p = (k, v)
  | [], p, hp => by simpa [aset] using hp
  | q :: rest, p, hp => by
    simp only [aset] at hp
    split at hp
    · rcases List.mem_cons.mp hp with h | h
      · exact Or.inr h
      · exact Or.inl (List.mem_cons_of_mem q h)
    · rcases List.mem_cons.mp hp with h | h
      · exact Or.inl (h ▸ List.mem_cons_self q rest)
      · rcases mem_aset k v rest p h with h2 | h2
        · exact Or.inl (List.mem_cons_of_mem q h2)
        · exact Or.inr h2

theorem vals_aset {α β : Type} [DecidableEq α] (k : α) (v : β) (P : α × β → Prop)
    (m : List (α × β)) (hm : ∀ p ∈ m, P p) (hkv : P (k, v)) :
    ∀ p ∈ aset k v m, P p := fun p hp =>
  (mem_aset k v m p hp).elim (hm p) (fun he => he ▸ hkv)

theorem aset_not_mem {α β : Type} [DecidableEq α] (k : α) (v : β) :
    ∀ m : List (α × β), k ∉ m.map Prod.fst → aset k v m = m ++ [(k, v)]
  | [], _ => rfl
  | p :: rest, h => by
    simp only [List.map_cons, List.mem_cons, not_or] at h
    simp only [aset]
    rw [if_neg (fun he => h.1 he.symm), aset_not_mem k v rest h.2]
    rfl

theorem asets_eq_self {α β : Type} [DecidableEq α] :
    ∀ (l acc : List (α × β)),
    (∀ p ∈ l, p.1 ∉ acc.map Prod.fst) → (l.map Prod.fst).Nodup →
    asets l acc = acc ++ l
  | [], acc, _, _ => by simp [asets]
  | p :: rest, acc, hdisj, hnd => by
    simp only [asets, List.foldl_cons]
    rw [aset_not_mem p.1 p.2 acc (hdisj p (List.mem_cons_self p rest))]
    have heq : List.foldl (fun acc q => aset q.1 q.2 acc) (acc ++ [(p.1, p.2)]) rest =
        asets rest (acc ++ [(p.1, p.2)]) := rfl
    rw [heq, asets_eq_self rest (acc ++ [(p.1, p.2)]) ?_ ?_]
    · simp
    · intro q hq
      simp only [List.map_append, List.mem_append, not_or]
      refine ⟨hdisj q (List.mem_cons_of_mem p hq), ?_⟩
      simp only [List.map_cons, List.nodup_cons] at hnd
      intro hc
      simp only [List.map_cons, List.map_nil, List.mem_cons, List.not_mem_nil,
        or_false] at hc
      exact hnd.1 (hc ▸ List.mem_map_of_mem Prod.fst hq)
    · exact (List.nodup_cons.mp (by simpa using hnd)).2

theorem alookup_perm {α β : Type} [DecidableEq α] {l l' : List (α × β)}
    (h : l.Perm l') (hnd : (l.map Prod.fst).Nodup) (k : α) :
    alookup k l = alookup k l' := by
  induction h with
  | nil => rfl
  | cons p h ih =>
    simp only [List.map_cons, List.nodup_cons] at hnd
    simp only [alookup]
    split
    · rfl
    · exact ih hnd.2
  | swap p q l =>
    simp only [List.map_cons, List.nodup_cons, List.mem_cons, not_or] at hnd
    have hqp : q.1 ≠ p.1 := hnd.1.1
    simp only [alookup]
    by_cases h1 : q.1 = k
    · subst h1
      rw [if_pos rfl, if_neg (fun he : p.1 = q.1 => hqp he.symm), if_pos rfl]
    · by_cases h2 : p.1 = k
      · subst h2
        rw [if_neg h1, if_pos rfl, if_pos rfl]
      · rw [if_neg h1, if_neg h2, if_neg h2, if_neg h1]
  | trans h1 h2 ih1 ih2 =>
    have hmid := ((h1.map Prod.fst).nodup_iff).mp hnd
    exact (ih1 hnd).trans (ih2 hmid)

/-! ## Well-formedness of built indexes -/

/-- Well-formedness of a term map. -/
def MapWF (m : List (String × List (List Nat))) : Prop :=
  (∀ p ∈ m, p.1 ≠ "" ∧ p.2 ≠ [] ∧ ∀ h ∈ p.2, GoodHit h) ∧ (m.map Prod.fst).Nodup

theorem goodHit_len {h : List Nat} (hg : GoodHit h) : 4 ≤ h.length := by
  obtain ⟨d, s, e, u, rfl⟩ := hg
  simp only [List.length_cons]
  omega

theorem strMk_ne_empty {cs : List Char} (h : cs ≠ []) : String.mk cs ≠ "" := by
  intro he
  have h2 := congrArg String.data he
  simp only at h2
  exact h (by simpa using h2)

theorem addPosToHead_good (s e : Nat) {hs : List (List Nat)} (hne : hs ≠ [])
    (hg : ∀ h ∈ hs, GoodHit h) :
    addPosToHead s e hs ≠ [] ∧ ∀ h ∈ addPosToHead s e hs, GoodHit h := by
  cases hs with
  | nil => exact absurd rfl hne
  | cons h0 rest =>
    refine ⟨by simp [addPosToHead], ?_⟩
    intro h hh
    simp only [addPosToHead, List.mem_cons] at hh
    rcases hh with rfl | hh
    · obtain ⟨d, s', e', u, rfl⟩ := hg h0 (List.mem_cons_self h0 rest)
      exact ⟨d, s', e', u ++ [s, e], by simp⟩
    · exact hg h (List.mem_cons_of_mem h0 hh)

theorem mem_keys_addTokenHit (d : Nat) (t : String) (s e : Nat) :
    ∀ (m : List (String × List (List Nat))) (x : String),
    x ∈ (addTokenHit d t s e m).map Prod.fst ↔ x ∈ m.map Prod.fst ∨ x = t
  | [], x => by simp [addTokenHit]
  | p :: rest, x => by
    simp only [addTokenHit]
    split
    · rename_i hpt
      simp only [List.map_cons, List.mem_cons, hpt]
      tauto
    · simp only [List.map_cons, List.mem_cons, mem_keys_addTokenHit d t s e rest x]
      tauto

theorem addTokenHit_wf (d : Nat) (t : String) (s e : Nat) (ht : t ≠ "") :
    ∀ m : List (String × List (List Nat)), MapWF m → MapWF (addTokenHit d t s e m)
  | [], _ => by
    constructor
    · intro p hp
      simp only [addTokenHit, List.mem_cons, List.not_mem_nil, or_false] at hp
      subst hp
      exact ⟨ht, by simp, by
        intro h hh
        simp only [List.mem_cons, List.not_mem_nil, or_false] at hh
        subst hh
        exact ⟨d % U32, s, e, [], rfl⟩⟩
    · simp [addTokenHit]
  | p :: rest, hm => by
    obtain ⟨hv, hk⟩ := hm
    simp only [List.map_cons, List.nodup_cons] at hk
    simp only [addTokenHit]
    split
    · rename_i hpt
      constructor
      · intro q hq
        rcases List.mem_cons.mp hq with rfl | hq
        · obtain ⟨h1, h2, h3⟩ := hv p (List.mem_cons_self p rest)
          obtain ⟨hn, hg⟩ := addPosToHead_good s e h2 h3
          exact ⟨h1, hn, hg⟩
        · exact hv q (List.mem_cons_of_mem p hq)
      · simpa [List.nodup_cons] using hk
    · rename_i hpt
      have ih := addTokenHit_wf d t s e ht rest ⟨fun q hq => hv q (List.mem_cons_of_mem p hq), hk.2⟩
      constructor
      · intro q hq
        rcases List.mem_cons.mp hq with rfl | hq
        · exact hv q (List.mem_cons_self q rest)
        · exact ih.1 q hq
      · simp only [List.map_cons, List.nodup_cons]
        refine ⟨?_, ih.2⟩
        intro hc
        rcases (mem_keys_addTokenHit d t s e rest p.1).mp hc with hc | hc
        · exact hk.1 hc
        · exact hpt hc

theorem hitsWeight_cons (h : List Nat) (hs : List (List Nat)) :
    hitsWeight (h :: hs) = (h.length - 2) + hitsWeight hs := by
  simp [hitsWeight]

theorem mapWeight_cons (p : String × List (List Nat)) (m : List (String × List (List Nat))) :
    mapWeight (p :: m) = hitsWeight p.2 + mapWeight m := by
  simp [mapWeight]

theorem mapWeight_addTokenHit (d : Nat) (t : String) (s e : Nat) :
    ∀ m : List (String × List (List Nat)),
    (∀ p ∈ m, p.2 ≠ [] ∧ ∀ h ∈ p.2, 2 ≤ h.length) →
    mapWeight (addTokenHit d t s e m) = mapWeight m + 2
  | [], _ => by simp [addTokenHit, mapWeight, hitsWeight]
  | p :: rest, hm => by
    simp only [addTokenHit]
    split
    · obtain ⟨hne, hlen⟩ := hm p (List.mem_cons_self p rest)
      cases hp2 : p.2 with
      | nil => exact absurd hp2 hne
      | cons h0 hs0 =>
        have hl0 : 2 ≤ h0.length := hlen h0 (by rw [hp2]; exact List.mem_cons_self h0 hs0)
        rw [mapWeight_cons, mapWeight_cons, hp2]
        simp only [addPosToHead, hitsWeight_cons, List.length_append, List.length_cons,
          List.length_nil]
        omega
    · rw [mapWeight_cons, mapWeight_cons,
        mapWeight_addTokenHit d t s e rest (fun q hq => hm q (List.mem_cons_of_mem p hq))]
      omega

theorem mem_keys_extendHits (t : String) (hs : List (List Nat)) :
    ∀ (m : List (String × List (List Nat))) (x : String),
    x ∈ (extendHits t hs m).map Prod.fst ↔ x ∈ m.map Prod.fst ∨ x = t
  | [], x => by simp [extendHits]
  | p :: rest, x => by
    simp only [extendHits]
    split
    · rename_i hpt
      simp only [List.map_cons, List.mem_cons, hpt]
      tauto
    · simp only [List.map_cons, List.mem_cons, mem_keys_extendHits t hs rest x]
      tauto

theorem extendHits_wf (t : String) (hs : List (List Nat)) (ht : t ≠ "")
    (hhs : hs ≠ []) (hg : ∀ h ∈ hs, GoodHit h) :
    ∀ m : List (String × List (List Nat)), MapWF m → MapWF (extendHits t hs m)
  | [], _ => by
    constructor
    · intro p hp
      simp only [extendHits, List.mem_cons, List.not_mem_nil, or_false] at hp
      subst hp
      exact ⟨ht, hhs, hg⟩
    · simp [extendHits]
  | p :: rest, hm => by
    obtain ⟨hv, hk⟩ := hm
    simp only [List.map_cons, List.nodup_cons] at hk
    simp only [extendHits]
    split
    · rename_i hpt
      constructor
      · intro q hq
        rcases List.mem_cons.mp hq with rfl | hq
        · obtain ⟨h1, h2, h3⟩ := hv p (List.mem_cons_self p rest)
          refine ⟨h1, by simp [h2], ?_⟩
          intro h hh
          rcases List.mem_append.mp hh with hh | hh
          · exact h3 h hh
          · exact hg h hh
        · exact hv q (List.mem_cons_of_mem p hq)
      · simpa [List.nodup_cons] using hk
    · rename_i hpt
      have ih := extendHits_wf t hs ht hhs hg rest
        ⟨fun q hq => hv q (List.mem_cons_of_mem p hq), hk.2⟩
      constructor
      · intro q hq
        rcases List.mem_cons.mp hq with rfl | hq
        · exact hv q (List.mem_cons_self q rest)
        · exact ih.1 q hq
      · simp only [List.map_cons, List.nodup_cons]
        refine ⟨?_, ih.2⟩
        intro hc
        rcases (mem_keys_extendHits t hs rest p.1).mp hc with hc | hc
        · exact hk.1 hc
        · exact hpt hc

theorem hitsWeight_append (a b : List (List Nat)) :
    hitsWeight (a ++ b) = hitsWeight a + hitsWeight b := by
  simp [hitsWeight]

theorem mapWeight_extendHits (t : String) (hs : List (List Nat)) :
    ∀ m : List (String × List (List Nat)),
    mapWeight (extendHits t hs m) = mapWeight m + hitsWeight hs
  | [] => by simp [extendHits, mapWeight]
  | p :: rest => by
    simp only [extendHits]
    split
    · rw [mapWeight_cons, mapWeight_cons]
      simp only [hitsWeight_append]
      omega
    · rw [mapWeight_cons, mapWeight_cons, mapWeight_extendHits t hs rest]
      omega

/-! ## Tokens are non-empty -/

/-- Invariant of the tokenizer loop. -/
def TkInv (st : TkState) : Prop :=
  (∀ t ∈ st.tokens, t.1 ≠ []) ∧ (st.inTok = true → st.cur ≠ [])

theorem tokenizeStep_tkInv (ia : Char → Bool) (st : TkState) (p : Nat × Char)
    (h : TkInv st) : TkInv (tokenizeStep ia st p) := by
  unfold tokenizeStep
  split
  · split
    · exact ⟨h.1, fun _ => by simp⟩
    · exact ⟨h.1, fun _ => by simp⟩
  · split
    · rename_i hin
      constructor
      · intro t ht
        rcases List.mem_append.mp ht with h1 | h1
        · exact h.1 t h1
        · simp only [List.mem_cons, List.not_mem_nil, or_false] at h1
          subst h1
          exact h.2 hin
      · intro hc
        simp at hc
    · exact h

theorem foldl_tkInv (ia : Char → Bool) :
    ∀ (ps : List (Nat × Char)) (st : TkState), TkInv st →
    TkInv (ps.foldl (tokenizeStep ia) st)
  | [], _, h => h
  | p :: rest, st, h =>
    foldl_tkInv ia rest (tokenizeStep ia st p) (tokenizeStep_tkInv ia st p h)

theorem tokenize_tok_ne (ia : Char → Bool) (text : List Char) :
    ∀ t ∈ tokenize ia text, t.1 ≠ [] := by
  have hinv := foldl_tkInv ia (charIndices text) ⟨[], 0, false, 0, []⟩
    ⟨by simp, by simp⟩
  intro t ht
  simp only [tokenize] at ht
  split at ht
  · rename_i hin
    rcases List.mem_append.mp ht with h1 | h1
    · exact hinv.1 t h1
    · simp only [List.mem_cons, List.not_mem_nil, or_false] at h1
      subst h1
      exact hinv.2 hin
  · exact hinv.1 t ht

/-! ## The `Built` invariant -/

theorem fsdFold_inv (d : Nat) :
    ∀ (toks : List (List Char × Nat × Nat)) (st : InMemoryIndex),
    (∀ tk ∈ toks, tk.1 ≠ []) → MapWF st.map → mapWeight st.map = 2 * st.word_count →
    MapWF ((toks.foldl (fsdStep d) st).map)
    ∧ mapWeight ((toks.foldl (fsdStep d) st).map) = 2 * (toks.foldl (fsdStep d) st).word_count
    ∧ (toks.foldl (fsdStep d) st).docs = st.docs
  | [], st, _, hwf, hwt => ⟨hwf, hwt, rfl⟩
  | tk :: rest, st, hne, hwf, hwt => by
    have htk : String.mk tk.1 ≠ "" := strMk_ne_empty (hne tk (List.mem_cons_self tk rest))
    have hwf1 := addTokenHit_wf d (String.mk tk.1) (tk.2.1 % U32) (tk.2.2 % U32) htk st.map hwf
    have hwt1 : mapWeight (addTokenHit d (String.mk tk.1) (tk.2.1 % U32) (tk.2.2 % U32) st.map)
        = mapWeight st.map + 2 := by
      apply mapWeight_addTokenHit
      intro p hp
      obtain ⟨h1, h2, h3⟩ := hwf.1 p hp
      exact ⟨h2, fun h hh => Nat.le_trans (by omega) (goodHit_len (h3 h hh))⟩
    have ih := fsdFold_inv d rest (fsdStep d st tk)
      (fun q hq => hne q (List.mem_cons_of_mem tk hq)) hwf1 (by simp [fsdStep, hwt1, hwt]; omega)
    simpa [List.foldl_cons] using ih

theorem extendFold_inv :
    ∀ (bm : List (String × List (List Nat))) (m : List (String × List (List Nat))),
    (∀ p ∈ bm, p.1 ≠ "" ∧ p.2 ≠ [] ∧ ∀ h ∈ p.2, GoodHit h) → MapWF m →
    MapWF (bm.foldl (fun acc p => extendHits p.1 p.2 acc) m)
    ∧ mapWeight (bm.foldl (fun acc p => extendHits p.1 p.2 acc) m)
      = mapWeight m + mapWeight bm
  | [], m, _, hm => ⟨hm, by simp [mapWeight]⟩
  | p :: rest, m, hb, hm => by
    obtain ⟨h1, h2, h3⟩ := hb p (List.mem_cons_self p rest)
    have hstep := extendHits_wf p.1 p.2 h1 h2 h3 m hm
    have hwt := mapWeight_extendHits p.1 p.2 m
    have ih := extendFold_inv rest (extendHits p.1 p.2 m)
      (fun q hq => hb q (List.mem_cons_of_mem p hq)) hstep
    refine ⟨by simpa using ih.1, ?_⟩
    simp only [List.foldl_cons] at ih ⊢
    rw [ih.2, hwt, mapWeight_cons]
    omega

theorem dsetFold_inv :
    ∀ (bd : List (Nat × Document)) (dm : List (Nat × Document)),
    (∀ p ∈ bd, p.2.id = p.1) → (dm.map Prod.fst).Nodup → (∀ p ∈ dm, p.2.id = p.1) →
    ((bd.foldl (fun acc p => aset p.1 p.2 acc) dm).map Prod.fst).Nodup
    ∧ (∀ p ∈ bd.foldl (fun acc p => aset p.1 p.2 acc) dm, p.2.id = p.1)
  | [], dm, _, hnd, hv => ⟨hnd, hv⟩
  | p :: rest, dm, hb, hnd, hv => by
    have hstep : ((aset p.1 p.2 dm).map Prod.fst).Nodup := nodup_aset p.1 p.2 dm hnd
    have hvals : ∀ q ∈ aset p.1 p.2 dm, q.2.id = q.1 :=
      vals_aset p.1 p.2 (fun q => q.2.id = q.1) dm hv (hb p (List.mem_cons_self p rest))
    have ih := dsetFold_inv rest (aset p.1 p.2 dm)
      (fun q hq => hb q (List.mem_cons_of_mem p hq)) hstep hvals
    simpa using ih

/-- Every built index is well-formed and its map weight is twice its word
count (the total number of spans stored). -/
theorem built_wf : ∀ {I : InMemoryIndex}, Built I →
    WFIndex I ∧ mapWeight I.map = 2 * I.word_count := by
  intro I hB
  induction hB with
  | new =>
    refine ⟨⟨?_, ?_, ?_, ?_⟩, ?_⟩ <;> simp [InMemoryIndex.new, mapWeight]
  | single ia lo id p t =>
    have htoks := tokenize_tok_ne ia (lo t)
    have hbase := fsdFold_inv id (tokenize ia (lo t)) InMemoryIndex.new htoks
      ⟨by simp [InMemoryIndex.new], by simp [InMemoryIndex.new]⟩
      (by simp [InMemoryIndex.new, mapWeight])
    obtain ⟨hwf, hwt, hdocs⟩ := hbase
    constructor
    · refine ⟨hwf.1, hwf.2, ?_, ?_⟩
      · rw [from_single_document]
        simp only
        rw [hdocs]
        simp [InMemoryIndex.new, aset]
      · rw [from_single_document]
        simp only
        rw [hdocs]
        intro q hq
        simp only [InMemoryIndex.new, aset, List.mem_cons, List.not_mem_nil, or_false] at hq
        subst hq
        rfl
    · exact hwt
  | merged a b ha hb iha ihb =>
    obtain ⟨⟨hav, hak, had, hai⟩, haw⟩ := iha
    obtain ⟨⟨hbv, hbk, hbd, hbi⟩, hbw⟩ := ihb
    have hmap := extendFold_inv b.map a.map hbv ⟨hav, hak⟩
    have hdocs := dsetFold_inv b.docs a.docs hbi had hai
    constructor
    · exact ⟨hmap.1.1, hmap.1.2, hdocs.1, hdocs.2⟩
    · rw [InMemoryIndex.merge]
      simp only
      rw [hmap.2, haw, hbw]
      ring

/-! ## Correctness of the `from_index_file` parsing loop -/

theorem parseHits_cons_pos (cur rest : List Nat) :
    parseHits cur true (SENTINEL :: rest) = cur :: parseHits [SENTINEL] true rest := by
  simp [parseHits]

theorem parseHits_cons_false (cur rest : List Nat) (w : Nat) :
    parseHits cur false (w :: rest) = parseHits (cur ++ [w]) true rest := by
  simp [parseHits]

theorem parseHits_cons_ne (cur rest : List Nat) (w : Nat) (hw : w ≠ SENTINEL) (b : Bool) :
    parseHits cur b (w :: rest) = parseHits (cur ++ [w]) true rest := by
  cases b <;> simp [parseHits, hw]

theorem parseWc_cons_pos (wc : Nat) (cur rest : List Nat) :
    parseWc wc cur true (SENTINEL :: rest) =
      parseWc (wrapAdd1 (wrapSub2 wc)) [SENTINEL] true rest := by
  simp [parseWc]

theorem parseWc_cons_ne (wc : Nat) (cur rest : List Nat) (w : Nat)
    (hw : w ≠ SENTINEL) (b : Bool) :
    parseWc wc cur b (w :: rest) = parseWc (wrapAdd1 wc) (cur ++ [w]) true rest := by
  cases b <;> simp [parseWc, hw]

theorem parseWc_cons_false (wc : Nat) (cur rest : List Nat) (w : Nat) :
    parseWc wc cur false (w :: rest) = parseWc (wrapAdd1 wc) (cur ++ [w]) true rest := by
  simp [parseWc]

theorem parseHits_run : ∀ (t cur rest : List Nat), SENTINEL ∉ t →
    parseHits cur true (t ++ rest) = parseHits (cur ++ t) true rest
  | [], cur, rest, _ => by simp [parseHits]
  | w :: t', cur, rest, h => by
    simp only [List.mem_cons, not_or] at h
    rw [List.cons_append, parseHits_cons_ne cur (t' ++ rest) w (fun he => h.1 he.symm) true]
    rw [parseHits_run t' (cur ++ [w]) rest h.2]
    simp

theorem parseHits_chain : ∀ (hs : List (List Nat)) (cur : List Nat),
    (∀ h ∈ hs, CleanHit h) → cur ≠ [] →
    parseHits cur true hs.flatten = cur :: hs
  | [], cur, _, hne => by simp [parseHits, hne]
  | h0 :: hs', cur, hclean, hne => by
    obtain ⟨u, heq, hu⟩ := hclean h0 (List.mem_cons_self h0 hs')
    subst heq
    have hfl : (List.flatten ((SENTINEL :: u) :: hs')) =
        SENTINEL :: (u ++ List.flatten hs') := by simp
    rw [hfl, parseHits_cons_pos, parseHits_run u [SENTINEL] (List.flatten hs') hu,
      List.singleton_append,
      parseHits_chain hs' (SENTINEL :: u)
        (fun h hh => hclean h (List.mem_cons_of_mem _ hh)) (by simp)]

theorem parseHits_top (hs : List (List Nat)) (hne : hs ≠ [])
    (hclean : ∀ h ∈ hs, CleanHit h) : parseHits [] false hs.flatten = hs := by
  cases hs with
  | nil => exact absurd rfl hne
  | cons h0 hs' =>
    obtain ⟨u, heq, hu⟩ := hclean h0 (List.mem_cons_self h0 hs')
    subst heq
    have hfl : (List.flatten ((SENTINEL :: u) :: hs')) =
        SENTINEL :: (u ++ List.flatten hs') := by simp
    rw [hfl, parseHits_cons_false, List.nil_append,
      parseHits_run u [SENTINEL] (List.flatten hs') hu, List.singleton_append]
    exact parseHits_chain hs' (SENTINEL :: u)
      (fun h hh => hclean h (List.mem_cons_of_mem _ hh)) (by simp)

theorem wrapAdd1_eq {n : Nat} (h : n + 1 < U64) : wrapAdd1 n = n + 1 :=
  Nat.mod_eq_of_lt h

theorem wrapSub2_eq {n : Nat} (h2 : 2 ≤ n) (h : n < U64) : wrapSub2 n = n - 2 := by
  unfold wrapSub2
  have he : n + U64 - 2 = (n - 2) + U64 := by omega
  rw [he, Nat.add_mod_right, Nat.mod_eq_of_lt (by omega)]

theorem parseWc_run : ∀ (t : List Nat) (wc : Nat) (cur rest : List Nat), SENTINEL ∉ t →
    wc + t.length < U64 →
    parseWc wc cur true (t ++ rest) = parseWc (wc + t.length) (cur ++ t) true rest
  | [], wc, cur, rest, _, _ => by simp [parseWc]
  | w :: t', wc, cur, rest, h, hb => by
    simp only [List.mem_cons, not_or] at h
    simp only [List.length_cons] at hb
    rw [List.cons_append, parseWc_cons_ne wc cur (t' ++ rest) w (fun he => h.1 he.symm) true]
    rw [wrapAdd1_eq (by omega)]
    rw [parseWc_run t' (wc + 1) (cur ++ [w]) rest h.2 (by omega)]
    have h1 : wc + 1 + t'.length = wc + (t'.length + 1) := by omega
    have h2 : cur ++ [w] ++ t' = cur ++ w :: t' := by simp
    rw [h1, h2, List.length_cons]

theorem flatten_len_ge : ∀ hs : List (List Nat), (∀ h ∈ hs, 2 ≤ h.length) →
    2 * hs.length ≤ hs.flatten.length
  | [], _ => by simp
  | h0 :: hs', h => by
    have h1 := h h0 (List.mem_cons_self h0 hs')
    have h2 := flatten_len_ge hs' (fun x hx => h x (List.mem_cons_of_mem h0 hx))
    simp only [List.flatten_cons, List.length_append, List.length_cons]
    omega

theorem parseWc_chain : ∀ (hs : List (List Nat)) (wc : Nat) (cur : List Nat),
    (∀ h ∈ hs, CleanHit h ∧ 2 ≤ h.length) → 2 ≤ wc →
    wc + hs.flatten.length < U64 → cur ≠ [] →
    parseWc wc cur true hs.flatten = wc + hs.flatten.length - 2 * hs.length - 2
  | [], wc, cur, _, h2, hb, hne => by
    simp only [List.flatten_nil, parseWc, if_neg hne]
    rw [wrapSub2_eq h2 (by simpa using hb)]
    simp
  | h0 :: hs', wc, cur, hcl, h2, hb, hne => by
    obtain ⟨⟨u, heq, hu⟩, hlen⟩ := hcl h0 (List.mem_cons_self h0 hs')
    subst heq
    have hul : 1 ≤ u.length := by
      simp only [List.length_cons] at hlen
      omega
    have hfl : (List.flatten ((SENTINEL :: u) :: hs')) =
        SENTINEL :: (u ++ List.flatten hs') := by simp
    rw [hfl] at hb ⊢
    simp only [List.length_cons, List.length_append] at hb
    have hwcU : wc < U64 := by omega
    rw [parseWc_cons_pos, wrapSub2_eq h2 hwcU, wrapAdd1_eq (by omega)]
    rw [parseWc_run u (wc - 2 + 1) [SENTINEL] (List.flatten hs') hu (by omega),
      List.singleton_append]
    have hgs : ∀ h ∈ hs', CleanHit h ∧ 2 ≤ h.length :=
      fun x hx => hcl x (List.mem_cons_of_mem _ hx)
    have hge := flatten_len_ge hs' (fun x hx => (hgs x hx).2)
    rw [parseWc_chain hs' (wc - 2 + 1 + u.length) (SENTINEL :: u) hgs
      (by omega) (by omega) (by simp)]
    simp only [List.length_cons, List.length_append]
    omega

theorem parseWc_top (hs : List (List Nat)) (wc : Nat) (hne : hs ≠ [])
    (hcl : ∀ h ∈ hs, CleanHit h ∧ 2 ≤ h.length)
    (hb : wc + hs.flatten.length < U64) :
    parseWc wc [] false hs.flatten = wc + hs.flatten.length - 2 * hs.length := by
  cases hs with
  | nil => exact absurd rfl hne
  | cons h0 hs' =>
    obtain ⟨⟨u, heq, hu⟩, hlen⟩ := hcl h0 (List.mem_cons_self h0 hs')
    subst heq
    have hul : 1 ≤ u.length := by
      simp only [List.length_cons] at hlen
      omega
    have hfl : (List.flatten ((SENTINEL :: u) :: hs')) =
        SENTINEL :: (u ++ List.flatten hs') := by simp
    rw [hfl] at hb ⊢
    simp only [List.length_cons, List.length_append] at hb
    rw [parseWc_cons_false, List.nil_append, wrapAdd1_eq (by omega)]
    rw [parseWc_run u (wc + 1) [SENTINEL] (List.flatten hs') hu (by omega),
      List.singleton_append]
    have hgs : ∀ h ∈ hs', CleanHit h ∧ 2 ≤ h.length :=
      fun x hx => hcl x (List.mem_cons_of_mem _ hx)
    have hge := flatten_len_ge hs' (fun x hx => (hgs x hx).2)
    rw [parseWc_chain hs' (wc + 1 + u.length) (SENTINEL :: u) hgs
      (by omega) (by omega) (by simp)]
    simp only [List.length_cons, List.length_append]
    omega

/-! ## Reloading the file written for an index -/

theorem reloadStep_term (st : RState) (p : String × List (List Nat))
    (hne : p.1 ≠ "") (hp : p.2 ≠ []) :
    reloadStep st (termEntry p) =
      ⟨parseWc st.word_count [] false p.2.flatten,
       aset p.1 (parseHits [] false p.2.flatten) st.map, st.docs⟩ := by
  have hdf : p.2.length ≠ 0 := fun h => hp (List.length_eq_zero.mp h)
  simp [reloadStep, termEntry, hne, hdf]

theorem reload_terms : ∀ (sm : List (String × List (List Nat))) (st : RState),
    (∀ p ∈ sm, p.1 ≠ "" ∧ p.2 ≠ [] ∧ ∀ h ∈ p.2, CleanHit h) →
    ((sm.map termEntry).foldl reloadStep st).map = asets sm st.map
    ∧ ((sm.map termEntry).foldl reloadStep st).docs = st.docs
  | [], st, _ => ⟨rfl, rfl⟩
  | p :: rest, st, h => by
    obtain ⟨h1, h2, h3⟩ := h p (List.mem_cons_self p rest)
    have hstep := reloadStep_term st p h1 h2
    rw [parseHits_top p.2 h2 h3] at hstep
    have ih := reload_terms rest
      ⟨parseWc st.word_count [] false p.2.flatten, aset p.1 p.2 st.map, st.docs⟩
      (fun q hq => h q (List.mem_cons_of_mem p hq))
    simp only [List.map_cons, List.foldl_cons, hstep]
    exact ⟨ih.1, ih.2⟩

/-- Total payload length, in words, of the term entries of a map. -/
def flatSum (sm : List (String × List (List Nat))) : Nat :=
  (sm.map (fun p => p.2.flatten.length)).sum

theorem flatSum_cons (p : String × List (List Nat)) (sm : List (String × List (List Nat))) :
    flatSum (p :: sm) = p.2.flatten.length + flatSum sm := by
  simp [flatSum]

theorem hitsWeight_flatten : ∀ hs : List (List Nat), (∀ h ∈ hs, 2 ≤ h.length) →
    hitsWeight hs = hs.flatten.length - 2 * hs.length
  | [], _ => by simp [hitsWeight]
  | h0 :: hs', h => by
    have h1 := h h0 (List.mem_cons_self h0 hs')
    have hge := flatten_len_ge hs' (fun x hx => h x (List.mem_cons_of_mem h0 hx))
    rw [hitsWeight_cons, hitsWeight_flatten hs' (fun x hx => h x (List.mem_cons_of_mem h0 hx))]
    simp only [List.flatten_cons, List.length_append, List.length_cons]
    omega

theorem flat_le_weight : ∀ hs : List (List Nat), (∀ h ∈ hs, 4 ≤ h.length) →
    hs.flatten.length ≤ 2 * hitsWeight hs
  | [], _ => by simp [hitsWeight]
  | h0 :: hs', h => by
    have h1 := h h0 (List.mem_cons_self h0 hs')
    have ih := flat_le_weight hs' (fun x hx => h x (List.mem_cons_of_mem h0 hx))
    rw [hitsWeight_cons]
    simp only [List.flatten_cons, List.length_append]
    omega

theorem flatSum_le : ∀ sm : List (String × List (List Nat)),
    (∀ p ∈ sm, ∀ h ∈ p.2, 4 ≤ h.length) → flatSum sm ≤ 2 * mapWeight sm
  | [], _ => by simp [flatSum, mapWeight]
  | p :: rest, h => by
    have h1 := flat_le_weight p.2 (h p (List.mem_cons_self p rest))
    have ih := flatSum_le rest (fun q hq => h q (List.mem_cons_of_mem p hq))
    rw [flatSum_cons, mapWeight_cons]
    omega

theorem reload_terms_wc : ∀ (sm : List (String × List (List Nat))) (st : RState),
    (∀ p ∈ sm, p.1 ≠ "" ∧ p.2 ≠ [] ∧ ∀ h ∈ p.2, CleanHit h ∧ 4 ≤ h.length) →
    st.word_count + flatSum sm < U64 →
    ((sm.map termEntry).foldl reloadStep st).word_count = st.word_count + mapWeight sm
  | [], st, _, _ => by simp [mapWeight]
  | p :: rest, st, h, hb => by
    obtain ⟨h1, h2, h3⟩ := h p (List.mem_cons_self p rest)
    rw [flatSum_cons] at hb
    have hlen2 : ∀ x ∈ p.2, CleanHit x ∧ 2 ≤ x.length := by
      intro x hx
      obtain ⟨hc, hl⟩ := h3 x hx
      exact ⟨hc, by omega⟩
    have hwc := parseWc_top p.2 st.word_count h2 hlen2 (by omega)
    have hstep := reloadStep_term st p h1 h2
    have hge := flatten_len_ge p.2 (fun x hx => (hlen2 x hx).2)
    have hwEq : hitsWeight p.2 = p.2.flatten.length - 2 * p.2.length :=
      hitsWeight_flatten p.2 (fun x hx => (hlen2 x hx).2)
    have ih := reload_terms_wc rest
      ⟨parseWc st.word_count [] false p.2.flatten,
       aset p.1 (parseHits [] false p.2.flatten) st.map, st.docs⟩
      (fun q hq => h q (List.mem_cons_of_mem p hq))
      (by simp only [hwc]; omega)
    simp only [List.map_cons, List.foldl_cons, hstep]
    rw [ih]
    simp only [hwc, mapWeight_cons]
    omega

theorem reload_docs : ∀ (ds : List (Nat × Document)) (st : RState),
    (∀ p ∈ ds, p.2.id = p.1) →
    (ds.map docEntry).foldl reloadStep st = ⟨st.word_count, st.map, asets ds st.docs⟩
  | [], st, _ => rfl
  | p :: rest, st, h => by
    have hid := h p (List.mem_cons_self p rest)
    have hstep : reloadStep st (docEntry p) = ⟨st.word_count, st.map, aset p.1 p.2 st.docs⟩ := by
      have h0 : reloadStep st (docEntry p) =
          { st with docs := aset p.2.id p.2 st.docs } := rfl
      rw [h0, hid]
    rw [List.map_cons, List.foldl_cons, hstep,
      reload_docs rest _ (fun q hq => h q (List.mem_cons_of_mem p hq))]
    rfl

/-- Claim C1, amended.  For every index built by `from_single_document` and
`merge` in which no document id or span offset collides with the hit-list
separator value `0xFFFFFFFF` (`StrayFree`), reloading the file written by
`write_index_to_tmp_file` reproduces, for every term, exactly the original
hit buffers, the same document map, and the same search results. -/
theorem from_index_file_roundtrip (I : InMemoryIndex) (hB : Built I) (hS : StrayFree I) :
    (∀ T, alookup T (from_index_file (writeIndexEntries I)).map = alookup T I.map)
    ∧ (from_index_file (writeIndexEntries I)).docs = I.docs
    ∧ ∀ T, searchHits (from_index_file (writeIndexEntries I)) T = searchHits I T := by
  obtain ⟨⟨hv, hk, hdk, hdi⟩, _⟩ := built_wf hB
  have hperm : (sortTerms I.map).Perm I.map := sortBy_perm _ I.map
  have hknd : ((sortTerms I.map).map Prod.fst).Nodup :=
    ((hperm.map Prod.fst).nodup_iff).mpr hk
  have hvs : ∀ p ∈ sortTerms I.map, p.1 ≠ "" ∧ p.2 ≠ [] ∧ ∀ h ∈ p.2, CleanHit h := by
    intro p hp
    have hpm : p ∈ I.map := hperm.mem_iff.mp hp
    obtain ⟨h1, h2, h3⟩ := hv p hpm
    refine ⟨h1, h2, fun h hh => ?_⟩
    obtain ⟨d, s, e, u, he⟩ := h3 h hh
    have hst := hS p hpm h hh
    refine ⟨d :: s :: e :: u, he, ?_⟩
    rw [he] at hst
    simpa using hst
  have hterm := reload_terms (sortTerms I.map) ⟨0, [], []⟩ hvs
  set st1 := ((sortTerms I.map).map termEntry).foldl reloadStep (⟨0, [], []⟩ : RState)
    with hst1
  have hm1 : st1.map = sortTerms I.map := by
    rw [hterm.1, asets_eq_self (sortTerms I.map) [] (by simp) hknd]
    simp
  have hd1 : st1.docs = [] := hterm.2
  have hfinal : (writeIndexEntries I).foldl reloadStep ⟨0, [], []⟩ =
      ⟨st1.word_count, sortTerms I.map, I.docs⟩ := by
    rw [writeIndexEntries, List.foldl_append, ← hst1, reload_docs I.docs st1 hdi,
      hm1, hd1, asets_eq_self I.docs [] (by simp) hdk]
    simp
  have hF : from_index_file (writeIndexEntries I) =
      ⟨st1.word_count / 2, sortTerms I.map, I.docs⟩ := by
    simp only [from_index_file, hfinal]
  have hlook : ∀ T, alookup T (sortTerms I.map) = alookup T I.map := fun T =>
    alookup_perm hperm hknd T
  refine ⟨?_, ?_, ?_⟩
  · intro T
    rw [hF]
    exact hlook T
  · rw [hF]
  · intro T
    rw [searchHits, searchHits, hF]
    simp only
    rw [hlook T]

/-- Claim C10, amended.  Under the same separator-collision hypothesis, and
a physical size bound, the reloaded word count equals the original: the
per-u32 increments, per-hit decrements and the final halving cancel. -/
theorem word_count_roundtrip (I : InMemoryIndex) (hB : Built I) (hS : StrayFree I)
    (hbound : 4 * I.word_count + 4 < U64) :
    (from_index_file (writeIndexEntries I)).word_count = I.word_count := by
  obtain ⟨⟨hv, hk, hdk, hdi⟩, hwt⟩ := built_wf hB
  have hperm : (sortTerms I.map).Perm I.map := sortBy_perm _ I.map
  have hvs : ∀ p ∈ sortTerms I.map,
      p.1 ≠ "" ∧ p.2 ≠ [] ∧ ∀ h ∈ p.2, CleanHit h ∧ 4 ≤ h.length := by
    intro p hp
    have hpm : p ∈ I.map := hperm.mem_iff.mp hp
    obtain ⟨h1, h2, h3⟩ := hv p hpm
    refine ⟨h1, h2, fun h hh => ?_⟩
    obtain ⟨d, s, e, u, he⟩ := h3 h hh
    have hst := hS p hpm h hh
    refine ⟨⟨d :: s :: e :: u, he, ?_⟩, goodHit_len (h3 h hh)⟩
    rw [he] at hst
    simpa using hst
  have hwsort : mapWeight (sortTerms I.map) = mapWeight I.map := by
    unfold mapWeight
    exact (hperm.map _).sum_eq
  have hflat : flatSum (sortTerms I.map) ≤ 2 * mapWeight (sortTerms I.map) :=
    flatSum_le _ (fun p hp h hh => ((hvs p hp).2.2 h hh).2)
  have hb0 : (0 : Nat) + flatSum (sortTerms I.map) < U64 := by
    rw [hwsort, hwt] at hflat
    omega
  have hterm := reload_terms_wc (sortTerms I.map) ⟨0, [], []⟩ hvs hb0
  set st1 := ((sortTerms I.map).map termEntry).foldl reloadStep (⟨0, [], []⟩ : RState)
    with hst1
  have hw1 : st1.word_count = 2 * I.word_count := by
    rw [hst1, hterm, hwsort, hwt]
    simp
  have hfinal : ((writeIndexEntries I).foldl reloadStep ⟨0, [], []⟩).word_count =
      2 * I.word_count := by
    rw [writeIndexEntries, List.foldl_append, ← hst1, reload_docs I.docs st1 hdi]
    exact hw1
  have hF : (from_index_file (writeIndexEntries I)).word_count =
      ((writeIndexEntries I).foldl reloadStep ⟨0, [], []⟩).word_count / 2 := rfl
  rw [hF, hfinal]
  omega

/-! ## Concrete instances for claims C1 and C10 -/

/-- A small two-document index built through the public constructors. -/
def exDocA : InMemoryIndex := from_single_document asciiAlnum lowerId 1 [5] ['a', 'b', ' ', 'c']

def exDocB : InMemoryIndex := from_single_document asciiAlnum lowerId 2 [6] ['a', 'b']

def exMerged : InMemoryIndex := exDocA.merge exDocB

/-- Witness for `from_index_file_roundtrip` at a concrete merged index. -/
theorem from_index_file_roundtrip_witness :
    alookup "ab" (from_index_file (writeIndexEntries exMerged)).map = alookup "ab" exMerged.map
    ∧ (from_index_file (writeIndexEntries exMerged)).docs = exMerged.docs := by
  have h := from_index_file_roundtrip exMerged
    (Built.merged _ _ (Built.single _ _ _ _ _) (Built.single _ _ _ _ _))
    (by unfold StrayFree; decide)
  exact ⟨h.1 "ab", h.2.1⟩

/-- An index whose document id is `u32::MAX`, the separator bit pattern. -/
def badDoc : InMemoryIndex := from_single_document asciiAlnum lowerId (U32 - 1) [] ['a']

/-- Counterexample to claim C1 as stated: for the index built by
`from_single_document(u32::MAX, _, "a")` the single four-word hit buffer
comes back from the round trip split into two buffers (the document-id word
equals the separator), so the reloaded index does not hold the same hits. -/
theorem from_index_file_roundtrip_cx :
    alookup "a" badDoc.map = some [[SENTINEL, SENTINEL, 0, 0]]
    ∧ alookup "a" (from_index_file (writeIndexEntries badDoc)).map
        = some [[SENTINEL], [SENTINEL, 0, 0]]
    ∧ ([[SENTINEL], [SENTINEL, 0, 0]] : List (List Nat)) ≠ [[SENTINEL, SENTINEL, 0, 0]] :=
  ⟨by decide, by decide, by decide⟩

/-- Witness for `word_count_roundtrip` at the same concrete merged index. -/
theorem word_count_roundtrip_witness :
    (from_index_file (writeIndexEntries exMerged)).word_count = exMerged.word_count :=
  word_count_roundtrip exMerged
    (Built.merged _ _ (Built.single _ _ _ _ _) (Built.single _ _ _ _ _))
    (by unfold StrayFree; decide) (by decide)

/-- Counterexample to claim C10 as stated: the same separator collision
makes the reloaded `word_count` 0 instead of 1. -/
theorem word_count_roundtrip_cx :
    badDoc.word_count = 1
    ∧ (from_index_file (writeIndexEntries badDoc)).word_count = 0 :=
  ⟨by decide, by decide⟩

/-! ## Multi-way merge (`merge.rs`, `merge_streams`)

Each open reader is its list of remaining contents entries (the read-ahead
`next` is the head).  `move_entry_to` copies the entry's payload bytes
sequentially, which for files this system writes are exactly the head
entry's payload, so moving an entry is taking the head. -/

/-- Accumulator of the selection scan (`term`, `nbytes`, `df`). -/
structure Sel where
  term : Option String
  nbytes : Nat
  df : Nat
deriving DecidableEq, Repr

/-- The selection scan over the readers' heads: an empty term (document
record) is selected immediately (`break`), otherwise the smallest term in
byte order wins and ties accumulate `nbytes` and `df`. -/
def selScan : List (List MEntry) → Sel → Sel
  | [], acc => acc
  | s :: rest, acc =>
    match s.head? with
    | none => selScan rest acc
    | some e =>
      if e.term = "" then ⟨some e.term, e.numBytes, e.df⟩
      else
        match acc.term with
        | none => selScan rest ⟨some e.term, e.numBytes, e.df⟩
        | some t =>
          if strLt e.term t then selScan rest ⟨some e.term, e.numBytes, e.df⟩
          else if e.term = t then
            selScan rest ⟨some t, acc.nbytes + e.numBytes, acc.df + e.df⟩
          else selScan rest acc

/-- The move loop: every reader whose head matches the selected term moves
its head entry to the output; for the empty term only the first match moves
(`break`).  Returns the advanced streams, the moved payloads in reader
order, and the number of readers that became exhausted (the `count -= 1`
decrements). -/
def moveLoop (term : String) : List (List MEntry) → List (List MEntry) × List EData × Nat
  | [] => ([], [], 0)
  | s :: rest =>
    match s with
    | [] =>
      let r := moveLoop term rest
      ([] :: r.1, r.2.1, r.2.2)
    | e :: s' =>
      if e.term = term then
        if term = "" then
          (s' :: rest, [e.data], if s'.isEmpty then 1 else 0)
        else
          let r := moveLoop term rest
          (s' :: r.1, e.data :: r.2.1, (if s'.isEmpty then 1 else 0) + r.2.2)
      else
        let r := moveLoop term rest
        (s :: r.1, r.2.1, r.2.2)

/-- Word payload of a term entry.  Document entries never carry `words` in
files this system writes, and conversely. -/
def dataWords : EData → List Nat
  | .words ws => ws
  | .doc _ _ => []

/-- One output contents record of the merge: the coalesced entry, the
`point` offset recorded for it, and the recorded byte count. -/
structure COut where
  ent : MEntry
  offset : Nat
  nbytes : Nat
deriving DecidableEq, Repr

inductive MergeRes : Type
  | ok (out : List COut)
  | panicked
  | nofuel
deriving DecidableEq

/-- Count of readers whose `peek()` is `Some`. -/
def activeCount (streams : List (List MEntry)) : Nat :=
  (streams.filter (fun s => !s.isEmpty)).length

/-- Total number of entries left across all readers (the loop measure). -/
def totalLen (streams : List (List MEntry)) : Nat := (streams.map List.length).sum

/-- The merge loop.  `count` is the source's running count of active
readers, `point` the running output offset.  `fuel` only forces
termination; `mergeStreams` supplies enough of it.  The arm returning
`panicked` is the `term.expect("bug in algorithm")`. -/
def mergeLoop : Nat → List (List MEntry) → Nat → Nat → List COut → MergeRes
  | 0, _, _, _, _ => .nofuel
  | fuel + 1, streams, count, point, acc =>
    if count = 0 then .ok acc
    else
      let sel := selScan streams ⟨none, 0, 0⟩
      match sel.term with
      | none => .panicked
      | some t =>
        let r := moveLoop t streams
        let d : EData :=
          if t = "" then (r.2.1.head?.getD (.words []))
          else .words ((r.2.1.map dataWords).flatten)
        mergeLoop fuel r.1 (count - r.2.2) (point + sel.nbytes)
          (acc ++ [⟨⟨t, sel.df, d⟩, point, sel.nbytes⟩])

/-- Model of `merge_streams`. -/
def mergeStreams (streams : List (List MEntry)) : MergeRes :=
  mergeLoop (totalLen streams + 1) streams (activeCount streams) 0 []

/-! ## Claim C8: the selection scan cannot fail while readers are active -/

theorem selScan_acc_some : ∀ (streams : List (List MEntry)) (acc : Sel),
    acc.term.isSome = true → ((selScan streams acc).term).isSome = true
  | [], _, h => h
  | s :: rest, acc, h => by
    simp only [selScan]
    match s.head? with
    | none => exact selScan_acc_some rest acc h
    | some e =>
      simp only
      split
      · rfl
      · match hacc : acc.term with
        | none => simp [hacc] at h
        | some t =>
          simp only
          split
          · exact selScan_acc_some rest _ rfl
          · split
            · exact selScan_acc_some rest _ rfl
            · exact selScan_acc_some rest acc h

theorem selScan_some : ∀ (streams : List (List MEntry)) (acc : Sel),
    (∃ s ∈ streams, s ≠ []) → ((selScan streams acc).term).isSome = true
  | [], _, h => by
    obtain ⟨s, hs, _⟩ := h
    exact absurd hs (List.not_mem_nil s)
  | s :: rest, acc, h => by
    simp only [selScan]
    match hs : s.head? with
    | none =>
      obtain ⟨s0, hs0, hne0⟩ := h
      rcases List.mem_cons.mp hs0 with rfl | hs0
      · exact absurd (List.head?_eq_none_iff.mp hs) hne0
      · exact selScan_some rest acc ⟨s0, hs0, hne0⟩
    | some e =>
      simp only
      split
      · rfl
      · match hacc : acc.term with
        | none => exact selScan_acc_some rest _ rfl
        | some t =>
          simp only
          split
          · exact selScan_acc_some rest _ rfl
          · split
            · exact selScan_acc_some rest _ rfl
            · exact selScan_acc_some rest acc (by simp [hacc])

theorem activeCount_cons (s : List MEntry) (rest : List (List MEntry)) :
    activeCount (s :: rest) = (if s.isEmpty then 0 else 1) + activeCount rest := by
  simp only [activeCount, List.filter_cons]
  split
  · rename_i hcond
    simp only [Bool.not_eq_true'] at hcond
    rw [if_neg (by simp_all), List.length_cons]
    omega
  · rename_i hcond
    simp only [Bool.not_eq_true', Bool.not_eq_false] at hcond
    rw [if_pos (by simp_all)]
    omega

theorem activeCount_pos_iff (streams : List (List MEntry)) :
    0 < activeCount streams ↔ ∃ s ∈ streams, s ≠ [] := by
  induction streams with
  | nil => simp [activeCount]
  | cons s rest ih =>
    rw [activeCount_cons]
    constructor
    · intro h
      by_cases hs : s.isEmpty
      · rw [if_pos hs] at h
        obtain ⟨s0, h0, h1⟩ := ih.mp (by omega)
        exact ⟨s0, List.mem_cons_of_mem s h0, h1⟩
      · exact ⟨s, List.mem_cons_self s rest, by simpa using hs⟩
    · rintro ⟨s0, hs0, hne⟩
      rcases List.mem_cons.mp hs0 with rfl | hs0
      · rw [if_neg (by simpa using hne)]
        omega
      · have := ih.mpr ⟨s0, hs0, hne⟩
        split <;> omega

theorem moveLoop_active : ∀ (streams : List (List MEntry)) (term : String),
    activeCount (moveLoop term streams).1 =
      activeCount streams - (moveLoop term streams).2.2
    ∧ (moveLoop term streams).2.2 ≤ activeCount streams
  | [], term => by simp [moveLoop, activeCount]
  | s :: rest, term => by
    have ih := moveLoop_active rest term
    match s with
    | [] =>
      simp only [moveLoop]
      rw [activeCount_cons, activeCount_cons]
      simp only [List.isEmpty_nil, if_pos rfl]
      omega
    | e :: s' =>
      rcases ih with ⟨ih1, ih2⟩
      simp only [moveLoop]
      split
      · split
        · rw [activeCount_cons, activeCount_cons]
          cases hb : s'.isEmpty <;> simp [hb]
        · simp only
          rw [activeCount_cons, activeCount_cons]
          cases hb : s'.isEmpty <;> simp [hb, ih1] <;> omega
      · simp only
        rw [activeCount_cons, activeCount_cons, ih1]
        omega

theorem mergeLoop_no_panic : ∀ (fuel : Nat) (streams : List (List MEntry))
    (point : Nat) (acc : List COut),
    mergeLoop fuel streams (activeCount streams) point acc ≠ .panicked
  | 0, _, _, _ => by simp [mergeLoop]
  | fuel + 1, streams, point, acc => by
    simp only [mergeLoop]
    split
    · simp
    · rename_i hcnt
      have hact : ∃ s ∈ streams, s ≠ [] :=
        (activeCount_pos_iff streams).mp (by omega)

      have hsome := selScan_some streams ⟨none, 0, 0⟩ hact
      match hsel : (selScan streams ⟨none, 0, 0⟩).term with
      | none => rw [hsel] at hsome; simp at hsome
      | some t =>
        simp only
        have hmv := moveLoop_active streams t
        have heq : activeCount streams - (moveLoop t streams).2.2 =
            activeCount (moveLoop t streams).1 := hmv.1.symm
        rw [heq]
        exact mergeLoop_no_panic fuel (moveLoop t streams).1 _ _

/-- Claim C8: whenever the count of readers whose `peek()` is `Some` is
positive at the top of the merge loop, the selection scan produces a term,
so the `expect("bug in algorithm")` is unreachable; and with the count
maintained exactly as the source maintains it (initialised to the number of
active readers and decremented per exhausted reader), `merge_streams` never
reaches the panic arm. -/
theorem merge_selection_safe (streams : List (List MEntry)) :
    (0 < activeCount streams → ((selScan streams ⟨none, 0, 0⟩).term).isSome = true)
    ∧ mergeStreams streams ≠ .panicked := by
  constructor
  · intro h
    exact selScan_some streams ⟨none, 0, 0⟩ ((activeCount_pos_iff streams).mp h)
  · exact mergeLoop_no_panic (totalLen streams + 1) streams 0 []

theorem totalLen_cons (s : List MEntry) (rest : List (List MEntry)) :
    totalLen (s :: rest) = s.length + totalLen rest := by
  simp [totalLen]

theorem moveLoop_le : ∀ (streams : List (List MEntry)) (t : String),
    totalLen (moveLoop t streams).1 ≤ totalLen streams
  | [], t => by simp [moveLoop]
  | s :: rest, t => by
    have ih := moveLoop_le rest t
    match s with
    | [] =>
      simp only [moveLoop]
      rw [totalLen_cons, totalLen_cons]
      simpa using ih
    | e :: s' =>
      simp only [moveLoop]
      split
      · split
        · rw [totalLen_cons, totalLen_cons]
          simp only [List.length_cons]
          omega
        · simp only
          rw [totalLen_cons, totalLen_cons]
          simp only [List.length_cons]
          omega
      · simp only
        rw [totalLen_cons, totalLen_cons]
        omega

theorem moveLoop_dec : ∀ (streams : List (List MEntry)) (t : String),
    (∃ s ∈ streams, ∃ e s', s = e :: s' ∧ e.term = t) →
    totalLen (moveLoop t streams).1 < totalLen streams
  | [], t, h => by
    obtain ⟨s, hs, _⟩ := h
    exact absurd hs (List.not_mem_nil s)
  | s :: rest, t, h => by
    match s with
    | [] =>
      have hw : ∃ s ∈ rest, ∃ e s', s = e :: s' ∧ e.term = t := by
        obtain ⟨s0, hs0, e, s', heq, ht⟩ := h
        rcases List.mem_cons.mp hs0 with rfl | hs0
        · exact absurd heq (by simp)
        · exact ⟨s0, hs0, e, s', heq, ht⟩
      have ih := moveLoop_dec rest t hw
      simp only [moveLoop]
      rw [totalLen_cons, totalLen_cons]
      simpa using ih
    | e :: s' =>
      simp only [moveLoop]
      split
      · split
        · rw [totalLen_cons, totalLen_cons]
          simp only [List.length_cons]
          omega
        · simp only
          have hle := moveLoop_le rest t
          rw [totalLen_cons, totalLen_cons]
          simp only [List.length_cons]
          omega
      · rename_i hne
        have hw : ∃ s ∈ rest, ∃ e2 s2, s = e2 :: s2 ∧ e2.term = t := by
          obtain ⟨s0, hs0, e2, s2, heq, ht⟩ := h
          rcases List.mem_cons.mp hs0 with rfl | hs0
          · rw [List.cons.injEq] at heq
            exact absurd (heq.1 ▸ ht) hne
          · exact ⟨s0, hs0, e2, s2, heq, ht⟩
        have ih := moveLoop_dec rest t hw
        simp only
        rw [totalLen_cons, totalLen_cons]
        omega

theorem selScan_term_mem : ∀ (streams : List (List MEntry)) (acc : Sel) (t : String),
    (selScan streams acc).term = some t →
    acc.term = some t ∨ ∃ s ∈ streams, ∃ e s', s = e :: s' ∧ e.term = t
  | [], acc, t, h => Or.inl h
  | s :: rest, acc, t, h => by
    rw [selScan] at h
    match hs : s.head? with
    | none =>
      rw [hs] at h
      rcases selScan_term_mem rest acc t h with h1 | ⟨s0, hs0, e, s', heq, ht⟩
      · exact Or.inl h1
      · exact Or.inr ⟨s0, List.mem_cons_of_mem s hs0, e, s', heq, ht⟩
    | some e =>
      rw [hs] at h
      simp only at h
      have hhead : ∃ s', s = e :: s' := by
        cases s with
        | nil => simp at hs
        | cons a s' =>
          simp only [List.head?_cons, Option.some.injEq] at hs
          exact ⟨s', by rw [hs]⟩
      obtain ⟨s', rfl⟩ := hhead
      split at h
      · rename_i hemp
        simp only [Sel.term, Option.some.injEq] at h
        exact Or.inr ⟨e :: s', List.mem_cons_self _ _, e, s', rfl, h⟩
      · match hacc : acc.term with
        | none =>
          rw [hacc] at h
          simp only at h
          rcases selScan_term_mem rest _ t h with h1 | ⟨s0, hs0, e2, s2, heq, ht⟩
          · simp only [Option.some.injEq] at h1
            exact Or.inr ⟨e :: s', List.mem_cons_self _ _, e, s', rfl, h1⟩
          · exact Or.inr ⟨s0, List.mem_cons_of_mem _ hs0, e2, s2, heq, ht⟩
        | some t0 =>
          rw [hacc] at h
          simp only at h
          split at h
          · rcases selScan_term_mem rest _ t h with h1 | ⟨s0, hs0, e2, s2, heq, ht⟩
            · simp only [Option.some.injEq] at h1
              exact Or.inr ⟨e :: s', List.mem_cons_self _ _, e, s', rfl, h1⟩
            · exact Or.inr ⟨s0, List.mem_cons_of_mem _ hs0, e2, s2, heq, ht⟩
          · split at h
            · rcases selScan_term_mem rest _ t h with h1 | ⟨s0, hs0, e2, s2, heq, ht⟩
              · exact Or.inl h1
              · exact Or.inr ⟨s0, List.mem_cons_of_mem _ hs0, e2, s2, heq, ht⟩
            · rcases selScan_term_mem rest acc t h with h1 | ⟨s0, hs0, e2, s2, heq, ht⟩
              · exact Or.inl (hacc.symm.trans h1)
              · exact Or.inr ⟨s0, List.mem_cons_of_mem _ hs0, e2, s2, heq, ht⟩

theorem mergeLoop_ok : ∀ (fuel : Nat) (streams : List (List MEntry))
    (point : Nat) (acc : List COut), totalLen streams < fuel →
    ∃ out, mergeLoop fuel streams (activeCount streams) point acc = .ok out
  | 0, streams, _, _, h => absurd h (by omega)
  | fuel + 1, streams, point, acc, h => by
    simp only [mergeLoop]
    split
    · exact ⟨acc, rfl⟩
    · rename_i hcnt
      have hact : ∃ s ∈ streams, s ≠ [] :=
        (activeCount_pos_iff streams).mp (by omega)
      have hsome := selScan_some streams ⟨none, 0, 0⟩ hact
      match hsel : (selScan streams ⟨none, 0, 0⟩).term with
      | none => rw [hsel] at hsome; simp at hsome
      | some t =>
        simp only
        have hmem := selScan_term_mem streams ⟨none, 0, 0⟩ t hsel
        have hmatch : ∃ s ∈ streams, ∃ e s', s = e :: s' ∧ e.term = t := by
          rcases hmem with h1 | h1
          · simp [Sel.term] at h1
          · exact h1
        have hdec := moveLoop_dec streams t hmatch
        have hmv := moveLoop_active streams t
        have heq : activeCount streams - (moveLoop t streams).2.2 =
            activeCount (moveLoop t streams).1 := hmv.1.symm
        rw [heq]
        exact mergeLoop_ok fuel (moveLoop t streams).1 _ _ (by omega)

/-- With the fuel `mergeStreams` supplies, the loop always completes. -/
theorem mergeStreams_ok (streams : List (List MEntry)) :
    ∃ out, mergeStreams streams = .ok out :=
  mergeLoop_ok (totalLen streams + 1) streams 0 [] (Nat.lt_succ_self _)

/-- Witness for `merge_selection_safe` at concrete streams. -/
theorem merge_selection_safe_witness :
    ((selScan [[MEntry.mk "a" 1 (.words [SENTINEL, 1, 0, 0])]] ⟨none, 0, 0⟩).term).isSome = true
    ∧ mergeStreams [[MEntry.mk "a" 1 (.words [SENTINEL, 1, 0, 0])]] ≠ .panicked := by
  refine ⟨(merge_selection_safe _).1 (by decide), (merge_selection_safe _).2⟩

/-! ## Claim C4: the sorted-term invariant of merged files -/

theorem lexLe_lt_trans (a b c : List Nat) :
    lexLe a b = true → lexLt b c = true → lexLe a c = true := by
  intro h1 h2
  rw [lexLe_iff] at h1 ⊢
  cases hca : lexLt c a with
  | false => rfl
  | true =>
    have h3 := lexLt_trans b c a h2 hca
    rw [h3] at h1
    exact absurd h1 (by simp)

theorem strLe_lt_trans {a b c : String} :
    strLe a b = true → strLt b c = true → strLe a c = true :=
  lexLe_lt_trans _ _ _

/-- The selected term is at most the accumulator's term. -/
theorem selScan_le_acc : ∀ (streams : List (List MEntry)) (acc : Sel) (t : String),
    (selScan streams acc).term = some t →
    ∀ u, acc.term = some u → strLe t u = true
  | [], acc, t, h, u, hu => by
    rw [selScan] at h
    rw [h] at hu
    injection hu with hu
    rw [← hu]
    exact strLe_refl t
  | s :: rest, acc, t, h, u, hu => by
    rw [selScan] at h
    match hs : s.head? with
    | none =>
      rw [hs] at h
      exact selScan_le_acc rest acc t h u hu
    | some e =>
      rw [hs] at h
      simp only at h
      split at h
      · simp only [Sel.term, Option.some.injEq] at h
        subst h
        rename_i hemp
        rw [hemp]
        exact empty_strLe u
      · rw [hu] at h
        simp only at h
        split at h
        · rename_i hlt
          have h1 := selScan_le_acc rest _ t h e.term rfl
          exact strLe_lt_trans h1 hlt
        · split at h
          · exact selScan_le_acc rest _ t h u rfl
          · exact selScan_le_acc rest acc t h u hu

/-- When the selected term is not the empty document tag, every active
reader's head is a non-document entry and the selected term is a lower
bound on every reader's head term. -/
theorem selScan_heads : ∀ (streams : List (List MEntry)) (acc : Sel) (t : String),
    (selScan streams acc).term = some t → t ≠ "" →
    (∀ u, acc.term = some u → u ≠ "") →
    ∀ s ∈ streams, ∀ e s', s = e :: s' → e.term ≠ "" ∧ strLe t e.term = true
  | [], _, _, _, _, _ => by
    intro s hs
    exact absurd hs (List.not_mem_nil s)
  | s0 :: rest, acc, t, h, hne, hacc => by
    rw [selScan] at h
    intro s hs e s' heq
    match hh : s0.head? with
    | none =>
      rw [hh] at h
      rcases List.mem_cons.mp hs with rfl | hs
      · rw [heq] at hh
        simp at hh
      · exact selScan_heads rest acc t h hne hacc s hs e s' heq
    | some e0 =>
      rw [hh] at h
      simp only at h
      have hs0 : ∃ s0', s0 = e0 :: s0' := by
        cases s0 with
        | nil => simp at hh
        | cons a s0' =>
          simp only [List.head?_cons, Option.some.injEq] at hh
          exact ⟨s0', by rw [hh]⟩
      obtain ⟨s0', rfl⟩ := hs0
      split at h
      · rename_i hemp
        simp only [Sel.term, Option.some.injEq] at h
        exact absurd (h ▸ hemp) hne
      · rename_i hemp
        match hacc2 : acc.term with
        | none =>
          rw [hacc2] at h
          simp only at h
          rcases List.mem_cons.mp hs with rfl | hs
          · rw [List.cons.injEq] at heq
            obtain ⟨rfl, rfl⟩ := heq
            exact ⟨hemp, selScan_le_acc rest _ t h e0.term rfl⟩
          · exact selScan_heads rest _ t h hne
              (fun u hu => by injection hu with h2; exact h2 ▸ hemp) s hs e s' heq
        | some t0 =>
          have ht0 : t0 ≠ "" := hacc t0 hacc2
          rw [hacc2] at h
          simp only at h
          split at h
          · rcases List.mem_cons.mp hs with rfl | hs
            · rw [List.cons.injEq] at heq
              obtain ⟨rfl, rfl⟩ := heq
              exact ⟨hemp, selScan_le_acc rest _ t h e0.term rfl⟩
            · exact selScan_heads rest _ t h hne
                (fun u hu => by injection hu with h2; exact h2 ▸ hemp) s hs e s' heq
          · split at h
            · rename_i heq0
              rcases List.mem_cons.mp hs with rfl | hs
              · rw [List.cons.injEq] at heq
                obtain ⟨rfl, rfl⟩ := heq
                have h1 := selScan_le_acc rest _ t h t0 rfl
                exact ⟨hemp, by rw [heq0]; exact h1⟩
              · exact selScan_heads rest _ t h hne
                  (fun u hu => by injection hu with h2; exact h2 ▸ ht0) s hs e s' heq
            · rename_i hnlt hne0
              rcases List.mem_cons.mp hs with rfl | hs
              · rw [List.cons.injEq] at heq
                obtain ⟨rfl, rfl⟩ := heq
                have h1 := selScan_le_acc rest acc t h t0 hacc2
                have h2 : strLe t0 e0.term = true :=
                  strLe_of_not_lt (by simpa using hnlt)
                exact ⟨hemp, strLe_trans h1 h2⟩
              · exact selScan_heads rest acc t h hne hacc s hs e s' heq

/-- Non-document terms of a file, in order. -/
def ntTerms (es : List MEntry) : List String :=
  (es.filter (fun e => !(e.term == ""))).map MEntry.term

/-- The sorted-term invariant: non-document entries come in byte order. -/
def TermsSorted (es : List MEntry) : Prop :=
  (ntTerms es).Pairwise (fun a b => strLe a b = true)

theorem ntTerms_cons_empty (e : MEntry) (es : List MEntry) (h : e.term = "") :
    ntTerms (e :: es) = ntTerms es := by
  simp [ntTerms, List.filter_cons, h]

theorem ntTerms_cons_nt (e : MEntry) (es : List MEntry) (h : e.term ≠ "") :
    ntTerms (e :: es) = e.term :: ntTerms es := by
  simp [ntTerms, List.filter_cons, h]

theorem ntTerms_append (a b : List MEntry) :
    ntTerms (a ++ b) = ntTerms a ++ ntTerms b := by
  simp [ntTerms]

theorem mem_ntTerms {e : MEntry} {es : List MEntry} (he : e ∈ es)
    (hne : e.term ≠ "") : e.term ∈ ntTerms es := by
  simp only [ntTerms, List.mem_map]
  refine ⟨e, ?_, rfl⟩
  simp [List.mem_filter, he, hne]

theorem sorted_tail {e : MEntry} {s' : List MEntry} (h : TermsSorted (e :: s')) :
    TermsSorted s' := by
  by_cases he : e.term = ""
  · rwa [TermsSorted, ← ntTerms_cons_empty e s' he]
  · rw [TermsSorted, ntTerms_cons_nt e s' he] at h
    exact (List.pairwise_cons.mp h).2

theorem sorted_head_le {e : MEntry} {s' : List MEntry} (h : TermsSorted (e :: s'))
    (hne : e.term ≠ "") :
    ∀ x ∈ s', x.term ≠ "" → strLe e.term x.term = true := by
  rw [TermsSorted, ntTerms_cons_nt e s' hne] at h
  intro x hx hxne
  exact (List.pairwise_cons.mp h).1 x.term (mem_ntTerms hx hxne)

/-- The move loop leaves every stream alone or pops its head. -/
theorem moveLoop_streams : ∀ (streams : List (List MEntry)) (t : String),
    ∀ s' ∈ (moveLoop t streams).1, ∃ s ∈ streams, s' = s ∨ s' = s.tail
  | [], t => by simp [moveLoop]
  | s :: rest, t => by
    intro s2 hs2
    match s with
    | [] =>
      simp only [moveLoop, List.mem_cons] at hs2
      rcases hs2 with rfl | hs2
      · exact ⟨[], List.mem_cons_self _ _, Or.inl rfl⟩
      · obtain ⟨s3, h3, h4⟩ := moveLoop_streams rest t s2 hs2
        exact ⟨s3, List.mem_cons_of_mem _ h3, h4⟩
    | e :: s0' =>
      simp only [moveLoop] at hs2
      split at hs2
      · split at hs2
        · simp only [List.mem_cons] at hs2
          rcases hs2 with rfl | hs2
          · exact ⟨e :: s2, List.mem_cons_self _ _, Or.inr rfl⟩
          · exact ⟨s2, List.mem_cons_of_mem _ hs2, Or.inl rfl⟩
        · simp only [List.mem_cons] at hs2
          rcases hs2 with rfl | hs2
          · exact ⟨e :: s2, List.mem_cons_self _ _, Or.inr rfl⟩
          · obtain ⟨s3, h3, h4⟩ := moveLoop_streams rest t s2 hs2
            exact ⟨s3, List.mem_cons_of_mem _ h3, h4⟩
      · simp only [List.mem_cons] at hs2
        rcases hs2 with rfl | hs2
        · exact ⟨e :: s0', List.mem_cons_self _ _, Or.inl rfl⟩
        · obtain ⟨s3, h3, h4⟩ := moveLoop_streams rest t s2 hs2
          exact ⟨s3, List.mem_cons_of_mem _ h3, h4⟩

/-- A sorted stream whose head term is bounded below by `t` has all its
non-document entries bounded below by `t`. -/
theorem stream_bound {t : String} {s : List MEntry} (hs : TermsSorted s)
    (hh : ∀ e s', s = e :: s' → e.term ≠ "" ∧ strLe t e.term = true) :
    ∀ x ∈ s, x.term ≠ "" → strLe t x.term = true := by
  cases s with
  | nil => intro x hx; exact absurd hx (List.not_mem_nil x)
  | cons e s0 =>
    obtain ⟨hne, hle⟩ := hh e s0 rfl
    intro x hx hxne
    rcases List.mem_cons.mp hx with rfl | hx
    · exact hle
    · exact strLe_trans hle (sorted_head_le hs hne x hx hxne)

theorem mem_of_stream_or_tail {x : MEntry} {s s' : List MEntry}
    (h : s' = s ∨ s' = s.tail) (hx : x ∈ s') : x ∈ s := by
  rcases h with rfl | rfl
  · exact hx
  · cases s with
    | nil => exact absurd hx (List.not_mem_nil x)
    | cons e s0 => exact List.mem_cons_of_mem e hx

/-- After moving the selected term out, every entry left in the streams is
bounded below by the selected term. -/
theorem moveLoop_bound2 (streams : List (List MEntry)) (t : String)
    (hstr : ∀ s ∈ streams, TermsSorted s)
    (hheads : ∀ s ∈ streams, ∀ e s', s = e :: s' →
      e.term ≠ "" ∧ strLe t e.term = true) :
    ∀ s' ∈ (moveLoop t streams).1, ∀ x ∈ s', x.term ≠ "" →
      strLe t x.term = true := by
  intro s' hs' x hx hxne
  obtain ⟨s, hsm, hor⟩ := moveLoop_streams streams t s' hs'
  exact stream_bound (hstr s hsm) (fun e s0 he => hheads s hsm e s0 he) x
    (mem_of_stream_or_tail hor hx) hxne

/-- The merge loop preserves sortedness: if every input stream is sorted,
the accumulated output is sorted and bounded above by everything left in
the streams, then a successful merge is sorted. -/
theorem mergeLoop_sorted : ∀ (fuel : Nat) (streams : List (List MEntry))
    (count point : Nat) (acc out : List COut),
    (∀ s ∈ streams, TermsSorted s) →
    (ntTerms (acc.map COut.ent)).Pairwise (fun a b => strLe a b = true) →
    (∀ u ∈ ntTerms (acc.map COut.ent), ∀ s ∈ streams, ∀ x ∈ s,
      x.term ≠ "" → strLe u x.term = true) →
    mergeLoop fuel streams count point acc = .ok out →
    (ntTerms (out.map COut.ent)).Pairwise (fun a b => strLe a b = true)
  | 0, streams, count, point, acc, out, _, _, _, h => by simp [mergeLoop] at h
  | fuel + 1, streams, count, point, acc, out, hstr, hacc, hbnd, h => by
    simp only [mergeLoop] at h
    split at h
    · rw [MergeRes.ok.injEq] at h
      rw [← h]
      exact hacc
    · match hsel : (selScan streams ⟨none, 0, 0⟩).term with
      | none => rw [hsel] at h; simp at h
      | some t =>
        rw [hsel] at h
        simp only at h
        have hstr' : ∀ s' ∈ (moveLoop t streams).1, TermsSorted s' := by
          intro s' hs'
          obtain ⟨s, hsm, hor⟩ := moveLoop_streams streams t s' hs'
          rcases hor with rfl | rfl
          · exact hstr _ hsm
          · cases s with
            | nil => exact List.Pairwise.nil
            | cons e s0 => exact sorted_tail (hstr _ hsm)
        refine mergeLoop_sorted fuel _ _ _ _ out hstr' ?_ ?_ h
        · rw [List.map_append, ntTerms_append, List.pairwise_append]
          refine ⟨hacc, ?_, ?_⟩
          · by_cases ht : t = ""
            · simp [ntTerms, ht]
            · simp [ntTerms, ht]
          · intro u hu v hv
            by_cases ht : t = ""
            · simp [ntTerms, ht] at hv
            · simp [ntTerms, ht] at hv
              rw [hv]
              have hach2 : ∃ s ∈ streams, ∃ e s', s = e :: s' ∧ e.term = t := by
                rcases selScan_term_mem streams ⟨none, 0, 0⟩ t hsel with h1 | h1
                · simp [Sel.term] at h1
                · exact h1
              obtain ⟨s, hsm, e, s', heq, hterm⟩ := hach2
              have hmem : e ∈ s := by rw [heq]; exact List.mem_cons_self e s'
              have hne' : e.term ≠ "" := by rw [hterm]; exact ht
              have h2 := hbnd u hu s hsm e hmem hne'
              rwa [hterm] at h2
        · intro u hu s' hs' x hx hxne
          rw [List.map_append, ntTerms_append] at hu
          rcases List.mem_append.mp hu with hu | hu
          · obtain ⟨s, hsm, hor⟩ := moveLoop_streams streams t s' hs'
            exact hbnd u hu s hsm x (mem_of_stream_or_tail hor hx) hxne
          · by_cases ht : t = ""
            · simp [ntTerms, ht] at hu
            · simp [ntTerms, ht] at hu
              rw [hu]
              have hheads := selScan_heads streams ⟨none, 0, 0⟩ t hsel ht
                (fun u2 hu2 => by simp [Sel.term] at hu2)
              exact moveLoop_bound2 streams t hstr hheads s' hs' x hx hxne

theorem ntTerms_docEntries : ∀ ds : List (Nat × Document),
    ntTerms (ds.map docEntry) = []
  | [] => rfl
  | d :: ds => by
    rw [List.map_cons, ntTerms_cons_empty _ _ rfl]
    exact ntTerms_docEntries ds

/-- The file written by `write_index_to_tmp_file` satisfies the
sorted-term invariant: its term entries come straight out of `sort_by`. -/
theorem termsSorted_write (I : InMemoryIndex) : TermsSorted (writeIndexEntries I) := by
  rw [TermsSorted, writeIndexEntries, ntTerms_append, ntTerms_docEntries,
    List.append_nil]
  have h1 : (sortTerms I.map).Pairwise (fun a b => strLe a.1 b.1 = true) :=
    sortBy_pairwise (fun a b => strLe_total a.1 b.1)
      (fun a b c => @strLe_trans a.1 b.1 c.1) I.map
  have h2 : ((sortTerms I.map).map termEntry).Pairwise
      (fun a b => strLe a.term b.term = true) :=
    h1.map termEntry (fun a b h => h)
  have h3 : (((sortTerms I.map).map termEntry).map MEntry.term).Pairwise
      (fun a b => strLe a b = true) :=
    h2.map MEntry.term (fun a b h => h)
  simp only [ntTerms]
  exact h3.sublist ((List.filter_sublist _).map MEntry.term)

/-- The index files this system produces: direct outputs of
`write_index_to_tmp_file`, and outputs of `merge_streams` runs whose
input streams are themselves produced files (any number of rounds). -/
inductive ProducedFile : List MEntry → Prop
  | write (I : InMemoryIndex) : ProducedFile (writeIndexEntries I)
  | merged (streams : List (List MEntry)) (out : List COut)
      (hstreams : ∀ s ∈ streams, ProducedFile s)
      (hok : mergeStreams streams = .ok out) :
      ProducedFile (out.map COut.ent)

theorem produced_sorted : ∀ es : List MEntry, ProducedFile es → TermsSorted es := by
  intro es h
  induction h with
  | write I => exact termsSorted_write I
  | merged streams out hstreams hok ih =>
    exact mergeLoop_sorted (totalLen streams + 1) streams (activeCount streams)
      0 [] out ih List.Pairwise.nil
      (fun u hu => absurd hu (List.not_mem_nil u)) hok

/-- Claim C4: in every index file the system produces — written directly
by `write_index_to_tmp_file` or output by `merge_streams`, through any
number of hierarchical merge rounds — the non-document contents entries
(those with a non-empty term) appear in ascending byte-lexicographic term
order: every earlier non-document entry's term is `≤` every later one's. -/
theorem final_terms_sorted (es : List MEntry) (h : ProducedFile es) :
    (ntTerms es).Pairwise (fun a b => strLe a b = true) :=
  produced_sorted es h

/-- Witness for `final_terms_sorted` on the concrete merged example index. -/
theorem final_terms_sorted_witness :
    (ntTerms (writeIndexEntries exMerged)).Pairwise (fun a b => strLe a b = true) :=
  final_terms_sorted (writeIndexEntries exMerged) (ProducedFile.write exMerged)

/-! ## The merge driver (`FileMerge`) and the single-threaded build -/

/-- `NSTREAMS`: how many files to merge at a time, at most. -/
def NSTREAMS : Nat := 8

/-- The entry list of the file a `merge_streams` run writes for the given
input files.  The default arm is unreachable: `mergeStreams` always
returns `.ok` (`mergeStreams_ok`, `merge_selection_safe`). -/
def mergeResult (streams : List (List MEntry)) : List MEntry :=
  match mergeStreams streams with
  | .ok out => out.map COut.ent
  | _ => []

/-- `merge_reversed`: reverse the pending files, merge them into a fresh
temporary file, and leave just that file in the vector. -/
def merge_reversed (tmp : List (List MEntry)) : List (List MEntry) :=
  [mergeResult tmp.reverse]

/-- One call of `FileMerge::add_file`.  The first equation is the
`level == self.stacks.len()` case: a fresh empty stack is pushed and the
file lands on it alone, which with `NSTREAMS = 8` never fills the stack,
so the loop breaks.  When a stack fills, it is swapped out, merged in push
order, and the merged file carries to the next level. -/
def addFile : List (List (List MEntry)) → List MEntry → List (List (List MEntry))
  | [], file => [[file]]
  | stack :: rest, file =>
    let st := stack ++ [file]
    if st.length < NSTREAMS then st :: rest
    else [] :: addFile rest (mergeResult st)

/-- Outcome of `FileMerge::finish`: the final rename of the merged file,
an `io::Error`, or a panic (`assert!`). -/
inductive FinishOutcome : Type
  | renamed (file : List MEntry)
  | error (msg : String)
  | panicked
deriving DecidableEq

def FinishOutcome.isRenamed : FinishOutcome → Bool
  | .renamed _ => true
  | _ => false

/-- One push of the drain loop in `finish`: `tmp.push(file)`, then merge
as soon as `tmp` holds `NSTREAMS` files. -/
def finishPush (tmp : List (List MEntry)) (file : List MEntry) : List (List MEntry) :=
  let tmp2 := tmp ++ [file]
  if tmp2.length = NSTREAMS then merge_reversed tmp2 else tmp2

/-- Model of `FileMerge::finish`: drain the stacks (each in reverse push
order), merge any surplus, then `assert!(tmp.len() == 1)` and rename the
popped file.  The `None` arm of the source's final `match` carries its
error text verbatim (including the typo); it is dead code, because the
assertion already rules out an empty `tmp`. -/
def finish (sts : List (List (List MEntry))) : FinishOutcome :=
  let tmp := sts.foldl (fun tmp stack => stack.reverse.foldl finishPush tmp) []
  let tmp2 := if 1 < tmp.length then merge_reversed tmp else tmp
  if tmp2.length = 1 then
    match tmp2.getLast? with
    | some f => .renamed f
    | none => .error "no ducuments were parsed or none contained any words"
  else .panicked

/-- Model of the document loop of `run_single_threaded`: `doc_id` is the
enumeration index plus one, cast to `u32`; a large accumulator is written
to a temporary file, handed to `add_file`, and replaced by a new index. -/
def rstLoop (ia : Char → Bool) (lower : List Char → List Char) :
    Nat → InMemoryIndex → List (List (List MEntry)) →
    List (List Nat × List Char) → InMemoryIndex × List (List (List MEntry))
  | _, acc, sts, [] => (acc, sts)
  | i, acc, sts, d :: ds =>
    let idx := from_single_document ia lower ((i + 1) % U32) d.1 d.2
    let acc2 := acc.merge idx
    if acc2.is_large then
      rstLoop ia lower (i + 1) InMemoryIndex.new
        (addFile sts (writeIndexEntries acc2)) ds
    else rstLoop ia lower (i + 1) acc2 sts ds

/-- Model of `run_single_threaded`: documents are `(path, text)` pairs;
after the loop a non-empty accumulator is written out and added, and
`finish` runs on the accumulated stacks. -/
def run_single_threaded (ia : Char → Bool) (lower : List Char → List Char)
    (docs : List (List Nat × List Char)) : FinishOutcome :=
  let r := rstLoop ia lower 0 InMemoryIndex.new [] docs
  let sts := if r.1.is_empty then r.2 else addFile r.2 (writeIndexEntries r.1)
  finish sts

/-- Claim C3 counterexample: with zero files added, `finish` does not
return the error the specification describes (it does not return any
error at all). -/
theorem finish_empty_cx :
    finish [] ≠ .error "no documents parsed or none contained any words" := by
  decide

/-- Claim C3: calling `FileMerge::finish` after zero files were added
terminates by panicking on `assert!(tmp.len() == 1)` — `tmp` is still
empty — rather than by returning an error; the `Err` branch carrying the
(misspelled) "no ducuments…" message sits after the assertion and is
unreachable. -/
theorem finish_empty_panics : finish [] = FinishOutcome.panicked := rfl

/-- A document with empty text contributes no tokens: the resulting index
has `word_count = 0`, an empty term map, and just the document record. -/
theorem fsd_empty (ia : Char → Bool) (lower : List Char → List Char)
    (id : Nat) (p : List Nat) (h : lower [] = []) :
    from_single_document ia lower id p [] =
      ⟨0, [], [(id % U32, ⟨id % U32, p⟩)]⟩ := by
  unfold from_single_document
  rw [h]
  rfl

/-- Claim C5 counterexample: on a corpus of exactly one file with empty
text, the single-threaded build does not finish with a rename of a final
index file. -/
theorem single_empty_file_cx :
    (run_single_threaded asciiAlnum lowerId [([], [])]).isRenamed = false := by
  decide

/-- Claim C5 (amended): for one input file whose text is empty, the
accumulated index keeps `word_count = 0`, so `is_empty` is true and no
temporary index file is ever written or added — the document record is
discarded with it; `FileMerge::finish` then panics on its assertion
instead of producing a final index file. -/
theorem single_empty_file_panics (ia : Char → Bool)
    (lower : List Char → List Char) (p : List Nat) (h : lower [] = []) :
    run_single_threaded ia lower [(p, [])] = FinishOutcome.panicked := by
  simp only [run_single_threaded, rstLoop, from_single_document]
  rw [h]
  rfl

/-- Witness for `single_empty_file_panics` at a concrete path. -/
theorem single_empty_file_panics_witness :
    lowerId [] = [] ∧
    run_single_threaded asciiAlnum lowerId [([5], [])] = FinishOutcome.panicked :=
  ⟨rfl, single_empty_file_panics asciiAlnum lowerId [5] rfl⟩

/-! ## Claim C2: contents-table offsets and the byte layout of files -/

/-- Bytes of one entry's payload, as the writer emits them: a term
entry's hit words little-endian back to back (`write_main`); a document
entry as id (u32), path length (u64), path bytes (`write_document`). -/
def dataBytes : EData → List Nat
  | .words ws => (ws.map u32le).flatten
  | .doc id path => u32le id ++ u64le path.length ++ path

theorem wordsBytes_len : ∀ ws : List Nat, ((ws.map u32le).flatten).length = 4 * ws.length
  | [] => rfl
  | w :: ws => by
    simp only [List.map_cons, List.flatten_cons, List.length_append,
      wordsBytes_len ws, List.length_cons, u32le]
    simp
    omega

/-- The byte count of a payload is the entry's `numBytes`. -/
theorem dataBytes_len : ∀ d : EData, (dataBytes d).length = d.numBytes
  | .words ws => wordsBytes_len ws
  | .doc id p => by
    simp [dataBytes, EData.numBytes, u32le, u64le]
    omega

/-- Pair each entry with the writer offset at which its payload starts:
the running `writer.offset` of `write_index_to_tmp_file`, seeded with the
header size 8. -/
def wOffsets : Nat → List MEntry → List (MEntry × Nat)
  | _, [] => []
  | off, e :: es => (e, off) :: wOffsets (off + (dataBytes e.data).length) es

/-- The main section of a file: all payloads back to back. -/
def mainBytes (es : List MEntry) : List Nat :=
  (es.map (fun e => dataBytes e.data)).flatten

theorem mainBytes_cons (e : MEntry) (es : List MEntry) :
    mainBytes (e :: es) = dataBytes e.data ++ mainBytes es := by
  simp [mainBytes]

/-- One record of the contents table, as `write_contents_entry` buffers
it: offset (u64), nbytes (u64), df (u32), term length (u32), term bytes. -/
def centryBytes (term : String) (df off nb : Nat) : List Nat :=
  u64le off ++ u64le nb ++ u32le df ++ u32le (strBytes term).length ++ strBytes term

/-- The bytes of the file `write_index_to_tmp_file` writes: the header
holds `contents_start = 8 + |main|`, then the payloads, then the
contents table with the absolute offsets the writer recorded. -/
def tmpFileBytes (I : InMemoryIndex) : List Nat :=
  u64le (8 + (mainBytes (writeIndexEntries I)).length) ++
    mainBytes (writeIndexEntries I) ++
    ((wOffsets 8 (writeIndexEntries I)).map
      (fun p => centryBytes p.1.term p.1.df p.2 (dataBytes p.1.data).length)).flatten

/-- Seeking to the offset paired with an entry and reading its payload
length yields exactly the payload, for any prefix whose length seeds
`wOffsets` and any suffix. -/
theorem slice_main : ∀ (es : List MEntry) (pre suf : List Nat),
    ∀ p ∈ wOffsets pre.length es,
    ((pre ++ mainBytes es ++ suf).drop p.2).take (dataBytes p.1.data).length =
      dataBytes p.1.data
  | [], _, _ => by
    intro p hp
    exact absurd hp (List.not_mem_nil p)
  | e :: es, pre, suf => by
    intro p hp
    rw [wOffsets] at hp
    rcases List.mem_cons.mp hp with rfl | hp
    · have h1 : pre ++ mainBytes (e :: es) ++ suf =
          pre ++ (dataBytes e.data ++ (mainBytes es ++ suf)) := by
        rw [mainBytes_cons]
        simp [List.append_assoc]
      rw [h1, List.drop_left, List.take_left]
    · have h2 : p ∈ wOffsets (pre ++ dataBytes e.data).length es := by
        rw [List.length_append]
        exact hp
      have h3 := slice_main es (pre ++ dataBytes e.data) suf p h2
      have h4 : (pre ++ dataBytes e.data) ++ mainBytes es ++ suf =
          pre ++ mainBytes (e :: es) ++ suf := by
        rw [mainBytes_cons]
        simp [List.append_assoc]
      rwa [h4] at h3

/-- Claim C2, writer part: in a file written by `write_index_to_tmp_file`
the offset recorded for every entry is the absolute byte position of its
payload (the first payload starts at 8, right after the header). -/
theorem tmp_offsets_absolute (I : InMemoryIndex) :
    ∀ p ∈ wOffsets 8 (writeIndexEntries I),
    ((tmpFileBytes I).drop p.2).take (dataBytes p.1.data).length =
      dataBytes p.1.data := by
  intro p hp
  exact slice_main (writeIndexEntries I)
    (u64le (8 + (mainBytes (writeIndexEntries I)).length)) _ p hp

/-- The contiguity of recorded offsets: each entry's offset is the base
plus the nbytes of all entries before it. -/
def contigB : Nat → List COut → Bool
  | _, [] => true
  | p, c :: cs => (c.offset == p) && contigB (p + c.nbytes) cs

theorem contigB_snoc : ∀ (cs : List COut) (p : Nat) (c : COut),
    contigB p cs = true → c.offset = p + (cs.map COut.nbytes).sum →
    contigB p (cs ++ [c]) = true
  | [], p, c, _, hoff => by
    simp only [List.nil_append, contigB, Bool.and_eq_true, beq_iff_eq]
    refine ⟨?_, trivial⟩
    simpa using hoff
  | d :: cs, p, c, hc, hoff => by
    simp only [contigB, Bool.and_eq_true, beq_iff_eq] at hc
    simp only [List.cons_append, contigB, Bool.and_eq_true, beq_iff_eq]
    refine ⟨hc.1, contigB_snoc cs (p + d.nbytes) c hc.2 ?_⟩
    simp only [List.map_cons, List.sum_cons] at hoff
    omega

/-- The merge loop records contiguous offsets: `point` always equals the
base plus the accumulated nbytes. -/
theorem mergeLoop_contig : ∀ (fuel : Nat) (streams : List (List MEntry))
    (count point : Nat) (acc out : List COut) (p : Nat),
    contigB p acc = true → point = p + (acc.map COut.nbytes).sum →
    mergeLoop fuel streams count point acc = .ok out →
    contigB p out = true
  | 0, _, _, _, _, _, _, _, _, h => by simp [mergeLoop] at h
  | fuel + 1, streams, count, point, acc, out, p, hc, hpt, h => by
    simp only [mergeLoop] at h
    split at h
    · rw [MergeRes.ok.injEq] at h
      rw [← h]
      exact hc
    · match hsel : (selScan streams ⟨none, 0, 0⟩).term with
      | none => rw [hsel] at h; simp at h
      | some t =>
        rw [hsel] at h
        simp only at h
        refine mergeLoop_contig fuel _ _ _ _ out p ?_ ?_ h
        · exact contigB_snoc acc p _ hc (by simpa using hpt)
        · simp only [List.map_append, List.sum_append, List.map_cons,
            List.sum_cons, List.map_nil, List.sum_nil]
          omega

/-- The offsets `merge_streams` records start at `point = 0`: they are
relative to the start of the payload section, not absolute. -/
theorem mergeStreams_contig (streams : List (List MEntry)) (out : List COut)
    (h : mergeStreams streams = .ok out) : contigB 0 out = true :=
  mergeLoop_contig (totalLen streams + 1) streams (activeCount streams) 0 [] out 0
    rfl rfl h

theorem heads_nil (rest : List (List MEntry)) :
    (([] : List MEntry) :: rest).filterMap List.head? = rest.filterMap List.head? := rfl

theorem heads_cons (e : MEntry) (s' : List MEntry) (rest : List (List MEntry)) :
    ((e :: s') :: rest).filterMap List.head? = e :: rest.filterMap List.head? := rfl

/-- The heads of the streams carrying the given term: exactly the entries
the selection accumulates and the move loop moves. -/
def matchedHeads (t : String) (streams : List (List MEntry)) : List MEntry :=
  (streams.filterMap List.head?).filter (fun e => e.term == t)

/-- Total recorded byte count of the matched heads. -/
def mhNB (t : String) (streams : List (List MEntry)) : Nat :=
  ((matchedHeads t streams).map MEntry.numBytes).sum

theorem matchedHeads_nil_stream (t : String) (rest : List (List MEntry)) :
    matchedHeads t ([] :: rest) = matchedHeads t rest := rfl

theorem matchedHeads_cons_eq {t : String} {e : MEntry} (s' : List MEntry)
    (rest : List (List MEntry)) (h : e.term = t) :
    matchedHeads t ((e :: s') :: rest) = e :: matchedHeads t rest := by
  simp [matchedHeads, heads_cons, List.filter_cons, h]

theorem matchedHeads_cons_ne {t : String} {e : MEntry} (s' : List MEntry)
    (rest : List (List MEntry)) (h : e.term ≠ t) :
    matchedHeads t ((e :: s') :: rest) = matchedHeads t rest := by
  simp [matchedHeads, heads_cons, List.filter_cons, h]

theorem mhNB_nil_stream (t : String) (rest : List (List MEntry)) :
    mhNB t ([] :: rest) = mhNB t rest := rfl

theorem mhNB_cons_eq {t : String} {e : MEntry} (s' : List MEntry)
    (rest : List (List MEntry)) (h : e.term = t) :
    mhNB t ((e :: s') :: rest) = e.numBytes + mhNB t rest := by
  simp [mhNB, matchedHeads_cons_eq s' rest h]

theorem mhNB_cons_ne {t : String} {e : MEntry} (s' : List MEntry)
    (rest : List (List MEntry)) (h : e.term ≠ t) :
    mhNB t ((e :: s') :: rest) = mhNB t rest := by
  simp [mhNB, matchedHeads_cons_ne s' rest h]

theorem strLt_irrefl (a : String) : strLt a a = false := lexLt_irrefl _

/-- A document record at the head of any stream forces the selection to
pick the empty term (the scan breaks there). -/
theorem selScan_doc_first : ∀ (streams : List (List MEntry)) (acc : Sel) (e0 : MEntry),
    e0 ∈ streams.filterMap List.head? → e0.term = "" →
    (selScan streams acc).term = some ""
  | [], _, e0, h, _ => absurd h (List.not_mem_nil e0)
  | s :: rest, acc, e0, h, h0 => by
    match s with
    | [] =>
      rw [heads_nil] at h
      simp only [selScan, List.head?_nil]
      exact selScan_doc_first rest acc e0 h h0
    | e :: s' =>
      rw [heads_cons] at h
      simp only [selScan, List.head?_cons]
      by_cases he : e.term = ""
      · rw [if_pos he]
        simp [he]
      · rw [if_neg he]
        have h' : e0 ∈ rest.filterMap List.head? := by
          rcases List.mem_cons.mp h with rfl | h2
          · exact absurd h0 he
          · exact h2
        match hacc : acc.term with
        | none => exact selScan_doc_first rest _ e0 h' h0
        | some u =>
          simp only
          split
          · exact selScan_doc_first rest _ e0 h' h0
          · split
            · exact selScan_doc_first rest _ e0 h' h0
            · exact selScan_doc_first rest acc e0 h' h0

/-- If the selection picked a non-empty term, no stream head is a
document record. -/
theorem heads_ne_empty {streams : List (List MEntry)} {t : String}
    (h : (selScan streams ⟨none, 0, 0⟩).term = some t) (ht : t ≠ "") :
    ∀ e ∈ streams.filterMap List.head?, e.term ≠ "" := by
  intro e he hterm
  have h2 := selScan_doc_first streams ⟨none, 0, 0⟩ e he hterm
  rw [h] at h2
  injection h2 with h3
  exact ht h3

/-- The accumulator-exactness of the selection scan: with no document
heads, the scan either keeps the accumulator term and adds the nbytes of
all heads carrying it, or switches to a strictly smaller term and returns
the nbytes of all heads carrying that term. -/
theorem selScan_nb_acc : ∀ (streams : List (List MEntry)) (u : String)
    (nb df : Nat) (t : String),
    (∀ e ∈ streams.filterMap List.head?, e.term ≠ "") →
    (selScan streams ⟨some u, nb, df⟩).term = some t →
    (t = u → (selScan streams ⟨some u, nb, df⟩).nbytes = nb + mhNB u streams)
    ∧ (t ≠ u → strLt t u = true ∧
        (selScan streams ⟨some u, nb, df⟩).nbytes = mhNB t streams)
  | [], u, nb, df, t, _, h => by
    rw [selScan] at h
    injection h with h
    subst h
    constructor
    · intro _
      simp [selScan, mhNB, matchedHeads]
    · intro hne
      exact absurd rfl hne
  | s :: rest, u, nb, df, t, hne, h => by
    match s with
    | [] =>
      simp only [selScan, List.head?_nil] at h ⊢
      rw [heads_nil] at hne
      rw [mhNB_nil_stream, mhNB_nil_stream]
      exact selScan_nb_acc rest u nb df t hne h
    | e :: s' =>
      have hneE : e.term ≠ "" := hne e (by rw [heads_cons]; exact List.mem_cons_self _ _)
      have hneR : ∀ x ∈ rest.filterMap List.head?, x.term ≠ "" := fun x hx =>
        hne x (by rw [heads_cons]; exact List.mem_cons_of_mem _ hx)
      simp only [selScan, List.head?_cons] at h ⊢
      rw [if_neg hneE] at h ⊢
      by_cases hlt : strLt e.term u = true
      · rw [if_pos hlt] at h ⊢
        have hrec := selScan_nb_acc rest e.term e.numBytes e.df t hneR h
        constructor
        · intro ht
          exfalso
          by_cases hte : t = e.term
          · rw [ht] at hte
            rw [hte] at hlt
            rw [strLt_irrefl] at hlt
            exact absurd hlt (by simp)
          · have h2 := (hrec.2 hte).1
            have h3 := lexLt_trans _ _ _ h2 hlt
            rw [ht] at h3
            rw [lexLt_irrefl] at h3
            exact absurd h3 (by simp)
        · intro _
          constructor
          · by_cases hte : t = e.term
            · rw [hte]
              exact hlt
            · exact lexLt_trans _ _ _ (hrec.2 hte).1 hlt
          · by_cases hte : t = e.term
            · have h4 := hrec.1 hte
              rw [hte, mhNB_cons_eq s' rest rfl]
              exact h4
            · have h4 := (hrec.2 hte).2
              rw [mhNB_cons_ne s' rest (fun hh => hte hh.symm)]
              exact h4
      · rw [if_neg hlt] at h ⊢
        by_cases heq : e.term = u
        · rw [if_pos heq] at h ⊢
          have hrec := selScan_nb_acc rest u (nb + e.numBytes) (df + e.df) t hneR h
          constructor
          · intro ht
            have h4 := hrec.1 ht
            rw [mhNB_cons_eq s' rest heq, h4]
            omega
          · intro hne2
            have h4 := hrec.2 hne2
            refine ⟨h4.1, ?_⟩
            have h5 : e.term ≠ t := by
              rw [heq]
              exact fun hh => hne2 hh.symm
            rw [mhNB_cons_ne s' rest h5]
            exact h4.2
        · rw [if_neg heq] at h ⊢
          have hrec := selScan_nb_acc rest u nb df t hneR h
          constructor
          · intro ht
            have h4 := hrec.1 ht
            rw [mhNB_cons_ne s' rest heq]
            exact h4
          · intro hne2
            have h4 := hrec.2 hne2
            refine ⟨h4.1, ?_⟩
            have h5 : e.term ≠ t := by
              intro hh
              exact hlt (by rw [hh]; exact h4.1)
            rw [mhNB_cons_ne s' rest h5]
            exact h4.2

/-- From the fresh accumulator, a selected non-document term's recorded
`nbytes` is the sum over all heads carrying that term. -/
theorem selScan_nb_none : ∀ (streams : List (List MEntry)) (t : String),
    (∀ e ∈ streams.filterMap List.head?, e.term ≠ "") →
    (selScan streams ⟨none, 0, 0⟩).term = some t →
    (selScan streams ⟨none, 0, 0⟩).nbytes = mhNB t streams
  | [], t, _, h => by simp [selScan] at h
  | s :: rest, t, hne, h => by
    match s with
    | [] =>
      simp only [selScan, List.head?_nil] at h ⊢
      rw [heads_nil] at hne
      rw [mhNB_nil_stream]
      exact selScan_nb_none rest t hne h
    | e :: s' =>
      have hneE : e.term ≠ "" := hne e (by rw [heads_cons]; exact List.mem_cons_self _ _)
      have hneR : ∀ x ∈ rest.filterMap List.head?, x.term ≠ "" := fun x hx =>
        hne x (by rw [heads_cons]; exact List.mem_cons_of_mem _ hx)
      simp only [selScan, List.head?_cons] at h ⊢
      rw [if_neg hneE] at h ⊢
      have hrec := selScan_nb_acc rest e.term e.numBytes e.df t hneR h
      by_cases hte : t = e.term
      · have h4 := hrec.1 hte
        rw [hte, mhNB_cons_eq s' rest rfl]
        exact h4
      · have h4 := (hrec.2 hte).2
        rw [mhNB_cons_ne s' rest (fun hh => hte hh.symm)]
        exact h4

/-- A selected empty term comes from the first document-record head in
stream order, and the recorded `nbytes` is that head's `numBytes`. -/
theorem selScan_doc_nbytes : ∀ (streams : List (List MEntry)) (acc : Sel),
    (∀ u, acc.term = some u → u ≠ "") →
    (selScan streams acc).term = some "" →
    ∃ pre e0 post, streams.filterMap List.head? = pre ++ e0 :: post ∧
      (∀ e ∈ pre, e.term ≠ "") ∧ e0.term = "" ∧
      (selScan streams acc).nbytes = e0.numBytes
  | [], acc, hacc, h => by
    rw [selScan] at h
    exact absurd rfl (hacc "" h)
  | s :: rest, acc, hacc, h => by
    match s with
    | [] =>
      simp only [selScan, List.head?_nil] at h ⊢
      obtain ⟨pre, e0, post, h1, h2, h3, h4⟩ := selScan_doc_nbytes rest acc hacc h
      exact ⟨pre, e0, post, by rw [heads_nil]; exact h1, h2, h3, h4⟩
    | e :: s' =>
      simp only [selScan, List.head?_cons] at h ⊢
      by_cases he : e.term = ""
      · rw [if_pos he] at h ⊢
        refine ⟨[], e, rest.filterMap List.head?, by rw [heads_cons]; rfl, ?_, he, rfl⟩
        intro x hx
        exact absurd hx (List.not_mem_nil x)
      · rw [if_neg he] at h ⊢
        have hstep : ∀ acc2 : Sel, (∀ u, acc2.term = some u → u ≠ "") →
            (selScan rest acc2).term = some "" →
            ∃ pre e0 post,
              ((e :: s') :: rest).filterMap List.head? = pre ++ e0 :: post ∧
              (∀ x ∈ pre, x.term ≠ "") ∧ e0.term = "" ∧
              (selScan rest acc2).nbytes = e0.numBytes := by
          intro acc2 hacc2 h2
          obtain ⟨pre, e0, post, h1, hp, h3, h4⟩ := selScan_doc_nbytes rest acc2 hacc2 h2
          refine ⟨e :: pre, e0, post, ?_, ?_, h3, h4⟩
          · rw [heads_cons, h1]
            rfl
          · intro x hx
            rcases List.mem_cons.mp hx with rfl | hx
            · exact he
            · exact hp x hx
        match hacc2 : acc.term with
        | none =>
          rw [hacc2] at h
          exact hstep _ (fun u hu => by injection hu with hu; exact hu ▸ he) h
        | some u =>
          rw [hacc2] at h
          simp only at h
          have hu : u ≠ "" := hacc u hacc2
          by_cases hlt : strLt e.term u = true
          · rw [if_pos hlt] at h
            have hres := hstep ⟨some e.term, e.numBytes, e.df⟩
              (fun v hv => by injection hv with hv; exact hv ▸ he) h
            simp only
            rw [if_pos hlt]
            exact hres
          · rw [if_neg hlt] at h
            by_cases heq : e.term = u
            · rw [if_pos heq] at h
              have hres := hstep ⟨some u, acc.nbytes + e.numBytes, acc.df + e.df⟩
                (fun v hv => by injection hv with hv; exact hv ▸ hu) h
              simp only
              rw [if_neg hlt, if_pos heq]
              exact hres
            · rw [if_neg heq] at h
              have hres := hstep acc hacc h
              simp only
              rw [if_neg hlt, if_neg heq]
              exact hres

/-- For a non-empty selected term the move loop moves exactly the data of
the matched heads, in stream order. -/
theorem moveLoop_payload_nt : ∀ (streams : List (List MEntry)) (t : String), t ≠ "" →
    (moveLoop t streams).2.1 = (matchedHeads t streams).map MEntry.data
  | [], _, _ => rfl
  | s :: rest, t, ht => by
    match s with
    | [] =>
      simp only [moveLoop, matchedHeads_nil_stream]
      exact moveLoop_payload_nt rest t ht
    | e :: s' =>
      simp only [moveLoop]
      by_cases he : e.term = t
      · rw [if_pos he, if_neg ht]
        simp only
        rw [matchedHeads_cons_eq s' rest he, List.map_cons]
        rw [moveLoop_payload_nt rest t ht]
      · rw [if_neg he]
        simp only
        rw [matchedHeads_cons_ne s' rest he]
        exact moveLoop_payload_nt rest t ht

/-- For the empty term the move loop moves exactly the data of the first
document-record head (it breaks after the first match). -/
theorem moveLoop_payload_doc : ∀ (streams : List (List MEntry)) (e0 : MEntry)
    (pre post : List MEntry),
    streams.filterMap List.head? = pre ++ e0 :: post →
    (∀ e ∈ pre, e.term ≠ "") → e0.term = "" →
    (moveLoop "" streams).2.1 = [e0.data]
  | [], e0, pre, post, h, _, _ => by simp at h
  | s :: rest, e0, pre, post, h, hpre, h0 => by
    match s with
    | [] =>
      rw [heads_nil] at h
      simp only [moveLoop]
      exact moveLoop_payload_doc rest e0 pre post h hpre h0
    | e :: s' =>
      rw [heads_cons] at h
      simp only [moveLoop]
      by_cases he : e.term = ""
      · rw [if_pos he, if_pos trivial]
        cases pre with
        | nil =>
          simp only [List.nil_append, List.cons.injEq] at h
          obtain ⟨rfl, -⟩ := h
          rfl
        | cons p pre2 =>
          simp only [List.cons_append, List.cons.injEq] at h
          obtain ⟨rfl, -⟩ := h
          exact absurd he (hpre e (List.mem_cons_self _ _))
      · rw [if_neg he]
        simp only
        cases pre with
        | nil =>
          simp only [List.nil_append, List.cons.injEq] at h
          obtain ⟨rfl, -⟩ := h
          exact absurd h0 he
        | cons p pre2 =>
          simp only [List.cons_append, List.cons.injEq] at h
          obtain ⟨rfl, h2⟩ := h
          exact moveLoop_payload_doc rest e0 pre2 post h2
            (fun x hx => hpre x (List.mem_cons_of_mem _ hx)) h0

/-- A stream head is an entry of its stream. -/
theorem mem_of_head_mem : ∀ (streams : List (List MEntry)) (e : MEntry),
    e ∈ streams.filterMap List.head? → ∃ s ∈ streams, e ∈ s
  | [], e, h => absurd h (List.not_mem_nil e)
  | s :: rest, e, h => by
    match s with
    | [] =>
      rw [heads_nil] at h
      obtain ⟨s0, hs0, he⟩ := mem_of_head_mem rest e h
      exact ⟨s0, List.mem_cons_of_mem _ hs0, he⟩
    | e' :: s' =>
      rw [heads_cons] at h
      rcases List.mem_cons.mp h with rfl | h2
      · exact ⟨e :: s', List.mem_cons_self _ _, List.mem_cons_self _ _⟩
      · obtain ⟨s0, hs0, he⟩ := mem_of_head_mem rest e h2
        exact ⟨s0, List.mem_cons_of_mem _ hs0, he⟩

/-- On entries whose data is a word list, total `numBytes` is four times
the total word count. -/
theorem matched_sum : ∀ es : List MEntry,
    (∀ e ∈ es, ∃ ws, e.data = EData.words ws) →
    (es.map MEntry.numBytes).sum =
      4 * (((es.map MEntry.data).map dataWords).flatten).length
  | [], _ => rfl
  | e :: es, h => by
    obtain ⟨ws, hws⟩ := h e (List.mem_cons_self _ _)
    have ih := matched_sum es (fun x hx => h x (List.mem_cons_of_mem _ hx))
    simp only [List.map_cons, List.sum_cons, List.flatten_cons, List.length_append]
    rw [ih, MEntry.numBytes, hws]
    simp only [dataWords, EData.numBytes]
    omega

/-- Every file `write_index_to_tmp_file` writes keeps word payloads on
non-document entries: a non-empty term always carries `words` data. -/
theorem writeIndex_TagOK (I : InMemoryIndex) :
    ∀ e ∈ writeIndexEntries I, e.term ≠ "" → ∃ ws, e.data = EData.words ws := by
  intro e he hne
  rw [writeIndexEntries] at he
  rcases List.mem_append.mp he with h1 | h1
  · obtain ⟨p, hp, rfl⟩ := List.mem_map.mp h1
    exact ⟨p.2.flatten, rfl⟩
  · obtain ⟨p, hp, rfl⟩ := List.mem_map.mp h1
    exact absurd rfl hne

/-- Every entry the merge records has `nbytes` equal to the byte length
of the payload written for it. -/
theorem mergeLoop_nbytes : ∀ (fuel : Nat) (streams : List (List MEntry))
    (count point : Nat) (acc out : List COut),
    (∀ s ∈ streams, ∀ e ∈ s, e.term ≠ "" → ∃ ws, e.data = EData.words ws) →
    (∀ c ∈ acc, c.nbytes = (dataBytes c.ent.data).length) →
    mergeLoop fuel streams count point acc = .ok out →
    ∀ c ∈ out, c.nbytes = (dataBytes c.ent.data).length
  | 0, _, _, _, _, _, _, _, h => by simp [mergeLoop] at h
  | fuel + 1, streams, count, point, acc, out, hTag, hacc, h => by
    simp only [mergeLoop] at h
    split at h
    · rw [MergeRes.ok.injEq] at h
      intro c hc
      rw [← h] at hc
      exact hacc c hc
    · match hsel : (selScan streams ⟨none, 0, 0⟩).term with
      | none => rw [hsel] at h; simp at h
      | some t =>
        rw [hsel] at h
        simp only at h
        have hTag2 : ∀ s2 ∈ (moveLoop t streams).1, ∀ e ∈ s2, e.term ≠ "" →
            ∃ ws, e.data = EData.words ws := by
          intro s2 hs2 e hx hne2
          obtain ⟨s0, hs0, hor⟩ := moveLoop_streams streams t s2 hs2
          exact hTag s0 hs0 e (mem_of_stream_or_tail hor hx) hne2
        refine mergeLoop_nbytes fuel _ _ _ _ out hTag2 ?_ h
        intro c hc
        rcases List.mem_append.mp hc with hc | hc
        · exact hacc c hc
        · simp only [List.mem_cons, List.not_mem_nil, or_false] at hc
          subst hc
          simp only
          by_cases ht : t = ""
          · subst ht
            obtain ⟨pre, e0, post, h1, h2, h3, h4⟩ :=
              selScan_doc_nbytes streams ⟨none, 0, 0⟩
                (fun u hu => by simp [Sel.term] at hu) hsel
            have h5 := moveLoop_payload_doc streams e0 pre post h1 h2 h3
            simp [h5, h4, dataBytes_len, MEntry.numBytes]
          · have hne2 := heads_ne_empty hsel ht
            have hnb := selScan_nb_none streams t hne2 hsel
            have hmv := moveLoop_payload_nt streams t ht
            have hmt : ∀ e ∈ matchedHeads t streams, ∃ ws, e.data = EData.words ws := by
              intro e hme
              have h6 : e ∈ streams.filterMap List.head? := List.mem_of_mem_filter hme
              have h7 : e.term = t := by
                have h8 := (List.mem_filter.mp hme).2
                simpa using h8
              obtain ⟨s0, hs0, hes⟩ := mem_of_head_mem streams e h6
              exact hTag s0 hs0 e hes (h7 ▸ ht)
            have hsum := matched_sum (matchedHeads t streams) hmt
            rw [if_neg ht, hnb, hmv]
            simp only [dataBytes]
            rw [wordsBytes_len]
            exact hsum

/-- Contiguous recorded offsets pin down the writer offsets of the merged
file: each payload starts at the recorded offset plus the 8-byte header. -/
theorem wOffsets_of_contig : ∀ (out : List COut) (p : Nat),
    contigB p out = true →
    (∀ c ∈ out, c.nbytes = (dataBytes c.ent.data).length) →
    wOffsets (p + 8) (out.map COut.ent) = out.map (fun c => (c.ent, c.offset + 8))
  | [], _, _, _ => rfl
  | c :: cs, p, hc, hnb => by
    simp only [contigB, Bool.and_eq_true, beq_iff_eq] at hc
    simp only [List.map_cons, wOffsets]
    have h1 : (dataBytes c.ent.data).length = c.nbytes :=
      (hnb c (List.mem_cons_self _ _)).symm
    rw [h1]
    rw [show p + 8 + c.nbytes = p + c.nbytes + 8 by omega]
    rw [wOffsets_of_contig cs (p + c.nbytes) hc.2
      (fun x hx => hnb x (List.mem_cons_of_mem _ hx))]
    rw [hc.1]

/-- The bytes of the file a `merge_streams` run writes: header, payloads
in output order, then the contents table with the offsets the merge
recorded (`point`, which started at 0). -/
def mergedFileBytes (out : List COut) : List Nat :=
  u64le (8 + (mainBytes (out.map COut.ent)).length) ++ mainBytes (out.map COut.ent) ++
    (out.map (fun c => centryBytes c.ent.term c.ent.df c.offset c.nbytes)).flatten

theorem merged_slices (out : List COut)
    (hcontig : contigB 0 out = true)
    (hnb : ∀ c ∈ out, c.nbytes = (dataBytes c.ent.data).length) :
    ∀ c ∈ out, ((mergedFileBytes out).drop (c.offset + 8)).take c.nbytes =
      dataBytes c.ent.data := by
  intro c hc
  have h0 : wOffsets 8 (out.map COut.ent) = out.map (fun c => (c.ent, c.offset + 8)) := by
    have h1 := wOffsets_of_contig out 0 hcontig hnb
    simpa using h1
  have hp : (c.ent, c.offset + 8) ∈ wOffsets 8 (out.map COut.ent) := by
    rw [h0]
    exact List.mem_map_of_mem _ hc
  have h2 := slice_main (out.map COut.ent)
    (u64le (8 + (mainBytes (out.map COut.ent)).length))
    ((out.map (fun c => centryBytes c.ent.term c.ent.df c.offset c.nbytes)).flatten)
    (c.ent, c.offset + 8) hp
  rw [hnb c hc]
  exact h2

/-- The output records of a merge; the default arm is unreachable. -/
def mergeOuts (streams : List (List MEntry)) : List COut :=
  match mergeStreams streams with
  | .ok out => out
  | _ => []

/-- Claim C2 (amended): in a file written directly by
`write_index_to_tmp_file`, every contents entry's offset is the absolute
byte position of its payload, the first payload starting at byte 8 right
after the header, so seeking to `entry.offset` and reading
`entry.nbytes` bytes returns exactly the payload.  In a file produced by
`merge_streams`, however, the recorded offsets start at `point = 0` and
are relative to the payload section: entry `i`'s offset is the sum of
the nbytes before it, its payload sits at absolute byte `offset + 8`,
and the recorded `nbytes` still equals the payload's length. -/
theorem contents_offsets (I : InMemoryIndex) (streams : List (List MEntry))
    (out : List COut)
    (hTag : ∀ s ∈ streams, ∀ e ∈ s, e.term ≠ "" → ∃ ws, e.data = EData.words ws)
    (hok : mergeStreams streams = .ok out) :
    (∀ p ∈ wOffsets 8 (writeIndexEntries I),
      ((tmpFileBytes I).drop p.2).take (dataBytes p.1.data).length = dataBytes p.1.data)
    ∧ contigB 0 out = true
    ∧ (∀ c ∈ out, c.nbytes = (dataBytes c.ent.data).length ∧
        ((mergedFileBytes out).drop (c.offset + 8)).take c.nbytes =
          dataBytes c.ent.data) := by
  have hnb : ∀ c ∈ out, c.nbytes = (dataBytes c.ent.data).length :=
    mergeLoop_nbytes (totalLen streams + 1) streams (activeCount streams) 0 [] out hTag
      (fun c hc => absurd hc (List.not_mem_nil c)) hok
  have hcontig := mergeStreams_contig streams out hok
  exact ⟨tmp_offsets_absolute I, hcontig,
    fun c hc => ⟨hnb c hc, merged_slices out hcontig hnb c hc⟩⟩

/-- Witness for `contents_offsets` on a concrete one-stream merge. -/
theorem contents_offsets_witness :
    (∀ p ∈ wOffsets 8 (writeIndexEntries exDocA),
      ((tmpFileBytes exDocA).drop p.2).take (dataBytes p.1.data).length =
        dataBytes p.1.data)
    ∧ contigB 0 (mergeOuts [writeIndexEntries exDocA]) = true
    ∧ (∀ c ∈ mergeOuts [writeIndexEntries exDocA],
        c.nbytes = (dataBytes c.ent.data).length ∧
        ((mergedFileBytes (mergeOuts [writeIndexEntries exDocA])).drop
          (c.offset + 8)).take c.nbytes = dataBytes c.ent.data) :=
  contents_offsets exDocA [writeIndexEntries exDocA]
    (mergeOuts [writeIndexEntries exDocA])
    (fun s hs => by
      rcases List.mem_cons.mp hs with rfl | hs
      · exact writeIndex_TagOK exDocA
      · exact absurd hs (List.not_mem_nil s))
    (by decide)

/-- Claim C2 counterexample: in the file written by a concrete merge the
first contents entry's recorded offset is 0, not the absolute position 8
of its payload, and seeking to the recorded offset does not return the
entry's payload. -/
theorem contents_offsets_cx :
    mergeOuts [writeIndexEntries exDocA] ≠ [] ∧
    ((mergeOuts [writeIndexEntries exDocA]).headD ⟨⟨"", 0, .words []⟩, 0, 0⟩).offset = 0 ∧
    ¬ (((mergedFileBytes (mergeOuts [writeIndexEntries exDocA])).drop
          ((mergeOuts [writeIndexEntries exDocA]).headD
            ⟨⟨"", 0, .words []⟩, 0, 0⟩).offset).take
          ((mergeOuts [writeIndexEntries exDocA]).headD
            ⟨⟨"", 0, .words []⟩, 0, 0⟩).nbytes =
        dataBytes ((mergeOuts [writeIndexEntries exDocA]).headD
          ⟨⟨"", 0, .words []⟩, 0, 0⟩).ent.data) := by
  decide

end InvIdx
